import Mathlib

/-!
Verification of the fcache future-cache core (klmitch/fcache).

This file gives a shallow embedding of the Go source under `src/` and settles
a list of claims about it.  The embedding models:

  * Go `interface{}` index ids as `Nat` and key values as `Option Nat`
    (`none` models the nil interface value, which really can arise as a map
    key in `remap`);
  * Go errors as a closed inductive `GoError` with a `permanent` wrapper
    mirroring `PermanentError` and a `wrap` constructor for other wrappers
    with an `Unwrap` chain;
  * the pointer graph (`*entry` records shared between index slots, `chan
    Entry` values shared between a waiter slot and a `Future`) as explicit
    heaps addressed by position (`EId`, `CId`), carried in a machine state
    `Sys`;
  * Go maps as association lists with unique keys (operations `mlookup`,
    `minsert`, `mdelete`, `mupdate` give exactly the Go map semantics when
    keys are unique);
  * panics and blocked channel operations as `Option`-failures of the
    modelled operations (`none` = the Go code does not return normally);
  * goroutine spawning (`go fc.manufacture(...)`) as a `Spawn` descriptor
    returned by `lookup`; because every public operation runs under the one
    cache mutex, a concurrent execution is a serialization of the locked
    sections, which is what sequential composition of the modelled
    operations expresses.

Nondeterminism of `select` with several ready cases is refined by giving
delivery priority over context cancellation; the claims proved below only
exercise states in which at most one case is ready.
-/

namespace Fcache

/-- Opaque object values stored in `Entry.Object`. -/
abbrev Obj := Nat

/-- Go `interface{}` values identifying an index. -/
abbrev IndexId := Nat

/-- Go `interface{}` key values within an index; `none` models the nil
interface value (the zero value of `interface{}`). -/
abbrev KV := Option Nat

/-- Closed model of Go `error` values reachable in this code base:
`base n` is an arbitrary user error, `canceled`/`deadlineExceeded` are the
context package sentinels, the named constructors are the cache's sentinel
errors from `errors.go`, `permanent e` is `*PermanentError{Err: e}` and
`wrap e` is any other wrapper exposing `Unwrap() = e`. -/
inductive GoError where
  | base : Nat → GoError
  | canceled : GoError
  | deadlineExceeded : GoError
  | noKey : GoError
  | duplicateOption : GoError
  | missingIndex : GoError
  | missingFactory : GoError
  | badIndex : GoError
  | notCached : GoError
  | incongruentKeys : GoError
  | entryNotFound : GoError
  | futureCanceled : GoError
  | permanent : GoError → GoError
  | wrap : GoError → GoError
deriving DecidableEq, Repr

/-- `IsPermanent` from `errors.go`: `errors.As(err, &tmp)` walks the
`Unwrap` chain looking for a `*PermanentError`. -/
def IsPermanent : GoError → Bool
  | .permanent _ => true
  | .wrap e => IsPermanent e
  | _ => false

/-- `Key` from `index.go`: a two-ple of index id and key value. -/
structure Key where
  index : IndexId
  key : KV
deriving DecidableEq, Repr

/-- `Entry` from `index.go`: the user-visible object, error and key list. -/
structure Entry where
  object : Option Obj
  error : Option GoError
  keys : List Key
deriving DecidableEq, Repr

/-- Heap address of an internal `*entry` record. -/
abbrev EId := Nat

/-- Heap address of a `chan Entry` value. -/
abbrev CId := Nat

/-- Identifier of a `context.Context` created by `newEntry`. -/
abbrev CtxId := Nat

/-- A `chan Entry` with buffer capacity 1: its current buffer contents and
whether `close` has been called. -/
structure Chan where
  buf : List Entry
  closed : Bool
deriving DecidableEq, Repr

/-- The internal `entry` record from `index.go`: contents (nil = pending),
the `reqs` map of waiter cookies to delivery channels (`none` models the
nil map) and the cancel function (`some c` holds the id of the context it
cancels; `none` models the nil function). -/
structure EntryS where
  content : Option Entry
  reqs : Option (List (Nat × CId))
  cancel : Option CtxId
deriving DecidableEq, Repr

/-! ### Go map operations on association lists -/

/-- Go map read `m[k]` (presence-aware form `v, ok := m[k]`). -/
def mlookup {α β : Type} [DecidableEq α] : List (α × β) → α → Option β
  | [], _ => none
  | (a, b) :: t, k => if a = k then some b else mlookup t k

/-- Go map write `m[k] = v`. -/
def minsert {α β : Type} [DecidableEq α] : List (α × β) → α → β → List (α × β)
  | [], k, v => [(k, v)]
  | (a, b) :: t, k, v => if a = k then (k, v) :: t else (a, b) :: minsert t k v

/-- Go map `delete(m, k)`. -/
def mdelete {α β : Type} [DecidableEq α] (m : List (α × β)) (k : α) : List (α × β) :=
  m.filter (fun p => !(p.1 == k))

/-- Update the value stored at `k`, if present (used to model mutation
through a pointer found in a map). -/
def mupdate {α β : Type} [DecidableEq α] : List (α × β) → α → (β → β) → List (α × β)
  | [], _, _ => []
  | (a, b) :: t, k, f => if a = k then (a, f b) :: t else (a, b) :: mupdate t k f

/-- The `index` record from `index.go`: factory and the entries map.  Slot
values are `Option EId` because a `*entry` stored in the map may be the nil
pointer. -/
structure IndexS where
  factory : Key → Option Entry
  entries : List (KV × Option EId)

/-- The `FCache` record: the map of indexes.  The mutex is implicit: every
modelled public operation is one atomic step. -/
structure FCacheS where
  indexes : List (IndexId × IndexS)

/-- The whole machine state: the cache, the heap of `entry` records, the
heap of channels, the set of cancelled factory contexts, and the global
`reqCounter` cookie source. -/
structure Sys where
  fc : FCacheS
  heap : List EntryS
  chans : List Chan
  canceledCtxs : List CtxId
  reqCounter : Nat
  ctxCounter : Nat

/-- Dereference a `*entry` (panic on invalid address is modelled by the
heap being position-addressed; addresses are only created in range). -/
def Sys.getEnt (s : Sys) (e : EId) : Option EntryS :=
  s.heap.get? e

def Sys.setEnt (s : Sys) (e : EId) (v : EntryS) : Sys :=
  { s with heap := s.heap.set e v }

def Sys.getChan (s : Sys) (c : CId) : Option Chan :=
  s.chans.get? c

def Sys.setChan (s : Sys) (c : CId) (v : Chan) : Sys :=
  { s with chans := s.chans.set c v }

/-- Mutate one index record in place (Go index structs hold their entries
map by reference, so a copy of the struct aliases the same map). -/
def Sys.updIndex (s : Sys) (i : IndexId) (f : IndexS → IndexS) : Sys :=
  { s with fc := { indexes := mupdate s.fc.indexes i f } }

/-- Read an index slot: `some (some e)` is a slot holding a real handle,
`some none` a slot holding a nil `*entry`, `none` an absent slot. -/
def slotOf (s : Sys) (i : IndexId) (k : KV) : Option (Option EId) :=
  match mlookup s.fc.indexes i with
  | none => none
  | some ix => mlookup ix.entries k

/-! ### `index.go`: newEntry, complete, makeFuture -/

/-- `newEntry` from `index.go`: allocates a fresh entry record holding only
a cancel function for a fresh context; returns the new address and the
context id. -/
def Sys.newEntry (s : Sys) : Sys × EId × CtxId :=
  let ctx := s.ctxCounter
  let eid := s.heap.length
  ({ s with
      heap := s.heap ++ [{ content := none, reqs := none, cancel := some ctx }]
      ctxCounter := ctx + 1 },
   eid, ctx)

/-- The value `ent.Error != nil && !IsPermanent(ent.Error)` computed by
`complete`. -/
def transientErr : Option GoError → Bool
  | none => false
  | some e => !IsPermanent e

/-- `req <- *ent; close(req)` for every waiter slot in the `reqs` map.
Sending on a full buffer blocks and closing a closed channel panics; both
are modelled as `none` (no normal return). -/
def Sys.deliverAll : Sys → List (Nat × CId) → Entry → Option Sys
  | s, [], _ => some s
  | s, (_, cid) :: t, ent =>
    match s.getChan cid with
    | none => none
    | some ch =>
      if ch.closed ∨ ch.buf ≠ [] then none
      else (s.setChan cid { buf := [ent], closed := true }).deliverAll t ent

/-- `(*entry).complete` from `index.go`.  `eid` is the receiver pointer,
`ent` the (non-nil) argument.  Returns the updated state and whether the
index slot should be removed. -/
def Sys.completeE (s : Sys) (eid : EId) (ent : Entry) : Option (Sys × Bool) :=
  match s.getEnt eid with
  | none => none
  | some es =>
    -- Do nothing if the entry is already complete
    if es.content.isSome then some (s, false)
    else
      -- Cancel any pending request
      let s :=
        match es.cancel with
        | some c => { s with canceledCtxs := c :: s.canceledCtxs }
        | none => s
      -- Save the content, pass it to all pending requests, clear the map
      match es.reqs with
      | some l =>
        match s.deliverAll l ent with
        | none => none
        | some s =>
          some (s.setEnt eid { content := some ent, reqs := none, cancel := none },
                transientErr ent.error)
      | none =>
        some (s.setEnt eid { content := some ent, reqs := none, cancel := none },
              transientErr ent.error)

/-- The `Future` record from `future.go` (the `fc` back-pointer is the one
modelled cache and is left implicit). -/
structure Future where
  ent : EId
  result : Option CId
  cookie : Nat
  canceled : Bool
deriving DecidableEq, Repr

/-- `(*entry).makeFuture` from `index.go`: registers a fresh one-buffered
channel under a fresh cookie when the entry is still pending. -/
def Sys.makeFuture (s : Sys) (eid : EId) : Option (Sys × Future) :=
  match s.getEnt eid with
  | none => none
  | some es =>
    if es.content.isSome then
      some (s, { ent := eid, result := none, cookie := 0, canceled := false })
    else
      let cid := s.chans.length
      let s := { s with chans := s.chans ++ [({ buf := [], closed := false } : Chan)] }
      let cookie := s.reqCounter + 1
      let s := { s with reqCounter := cookie }
      let reqs := minsert (es.reqs.getD []) cookie cid
      let s := s.setEnt eid { es with reqs := some reqs }
      some (s, { ent := eid, result := some cid, cookie := cookie, canceled := false })

/-! ### `lookup.go`: insert, manufacture, lookup -/

/-- The per-key loop of `insert`.  `entV` is the dereferenced entry, `newE`
the pre-created handle (`none` when the entry is not retained — note the
source installs `newE` at absent slots whenever `ent != nil`, even when
`newE` is the nil pointer). -/
def Sys.insertLoop (s : Sys) (entV : Entry) (newE : Option EId) : List Key → Option Sys
  | [] => some s
  | k :: t =>
    match mlookup s.fc.indexes k.index with
    | none => s.insertLoop entV newE t  -- skip indexes we don't know about
    | some idx =>
      match mlookup idx.entries k.key with
      | some eptr =>
        match eptr with
        | none => none  -- slot holds a nil *entry: e.complete dereferences it
        | some eid =>
          match s.completeE eid entV with
          | none => none
          | some (s, rm) =>
            let s :=
              if rm then s.updIndex k.index (fun ix => { ix with entries := mdelete ix.entries k.key })
              else s
            s.insertLoop entV newE t
      | none =>
        -- Go: `} else if ent != nil {` — always true here, since `ent` was
        -- dereferenced before the loop; installs `newE` unconditionally
        let s := s.updIndex k.index (fun ix => { ix with entries := minsert ix.entries k.key newE })
        s.insertLoop entV newE t

/-- `(*FCache).insert` from `lookup.go`.  The argument is a `*Entry`;
passing the nil pointer panics at the very first statement
(`ent.Error == nil`), which is modelled as `none`. -/
def Sys.insertE (s : Sys) (ent : Option Entry) : Option (Sys × Option EId) :=
  match ent with
  | none => none  -- Go: `ent.Error` dereferences a nil *Entry and panics
  | some entV =>
    -- Pre-create the entry, if appropriate
    let retain : Bool :=
      match entV.error with
      | none => true
      | some e => IsPermanent e
    let (s, newE) :=
      if retain then
        (({ s with heap := s.heap ++ [{ content := some entV, reqs := none, cancel := none }] } : Sys),
         some s.heap.length)
      else (s, none)
    match s.insertLoop entV newE entV.keys with
    | none => none
    | some s => some (s, newE)

/-- `(*FCache).manufacture` from `lookup.go`: invoke the factory, then
insert the result under the lock. -/
def Sys.manufacture (s : Sys) (key : Key) (factory : Key → Option Entry) : Option Sys :=
  match s.insertE (factory key) with
  | none => none
  | some (s, _) => some s

/-! ### `options.go`: lookup options -/

/-- The consolidated `lookupOptions` record.  `ctx` is `Option CtxId` with
`none` modelling the nil context; context id 0 stands for
`context.Background()`. -/
structure lookupOptions where
  ent : Option Entry
  key : Option Key
  only : Bool
  ctx : Option CtxId
deriving DecidableEq, Repr

/-- The closed set of `LookupOption` implementations from `options.go`. -/
inductive LookupOption where
  | byEntry (e : Entry)
  | byKey (k : Key)
  | searchCache (b : Bool)
  | withContext (c : CtxId)
deriving DecidableEq, Repr

/-- One `apply` step.  `none` models a panic: `byEntryOption.apply` indexes
`o.ent.Keys[0]`, which is out of range when the entry has no keys. -/
def applyOpt (o : lookupOptions) : LookupOption → Option (Except GoError lookupOptions)
  | .byEntry e =>
    if o.key.isSome then some (.error .duplicateOption)
    else
      match e.keys with
      | [] => none  -- Go: index out of range in `&o.ent.Keys[0]`
      | k :: _ => some (.ok { o with ent := some e, key := some k })
  | .byKey k =>
    if o.key.isSome then some (.error .duplicateOption)
    else some (.ok { o with key := some k })
  | .searchCache b => some (.ok { o with only := b })
  | .withContext c =>
    if o.ctx.isSome then some (.error .duplicateOption)
    else some (.ok { o with ctx := some c })

/-- The option fold inside `procLookupOpts`. -/
def applyOpts (o : lookupOptions) : List LookupOption → Option (Except GoError lookupOptions)
  | [] => some (.ok o)
  | opt :: t =>
    match applyOpt o opt with
    | none => none
    | some (.error e) => some (.error e)
    | some (.ok o) => applyOpts o t

/-- `procLookupOpts` from `options.go`.  Note that the source initialises
the result with `ctx: context.Background()`, so any `WithContext` option
hits the `o.ctx != nil` duplicate check. -/
def procLookupOpts (opts : List LookupOption) : Option (Except GoError lookupOptions) :=
  match applyOpts { ent := none, key := none, only := false, ctx := some 0 } opts with
  | none => none
  | some (.error e) => some (.error e)
  | some (.ok o) =>
    -- Make sure we have a key
    if o.key.isSome then some (.ok o) else some (.error .noKey)

/-! ### `lookup.go`: lookup and its public wrappers -/

/-- A goroutine spawned by `go fc.manufacture(ctx, key, factory)`. -/
structure Spawn where
  ctx : CtxId
  key : Key
  factory : Key → Option Entry

/-- The common tail of `lookup`: the search-only check on a pending entry
followed by future construction. -/
def Sys.lookupTail (s : Sys) (eid : EId) (only : Bool) (sp : Option Spawn) :
    Option (Sys × Except GoError Future × Option Spawn) :=
  match s.getEnt eid with
  | none => none
  | some es =>
    if es.content = none ∧ only then some (s, .error .notCached, none)
    else
      match s.makeFuture eid with
      | none => none
      | some (s, f) => some (s, .ok f, sp)

/-- `(*FCache).lookup` from `lookup.go`.  The third component reports the
`go fc.manufacture(...)` spawn, if any; the factory itself runs outside
the lock and is not part of this step. -/
def Sys.lookup (s : Sys) (o : lookupOptions) : Option (Sys × Except GoError Future × Option Spawn) :=
  match o.key with
  | none => none  -- `o.key.Index` would dereference a nil *Key
  | some key =>
    match mlookup s.fc.indexes key.index with
    | none => some (s, .error .badIndex, none)
    | some idx =>
      match mlookup idx.entries key.key with
      | some eptr =>
        match eptr with
        | none => none  -- nil *entry in the slot: `ent.content` panics
        | some eid => s.lookupTail eid o.only none
      | none =>
        -- Not present; insert entry if one was passed
        if o.ent.isSome then
          match s.insertE o.ent with
          | none => none
          | some (s, newE) =>
            match newE with
            | none => none  -- nil e: `e.makeFuture(fc)` dereferences it
            | some eid =>
              match s.makeFuture eid with
              | none => none
              | some (s, f) => some (s, .ok f, none)
        else if o.only then some (s, .error .notCached, none)
        else
          -- Construct a new entry and manufacture it
          let (s, eid, ctx) := s.newEntry
          let s := s.updIndex key.index
            (fun ix => { ix with entries := minsert ix.entries key.key (some eid) })
          s.lookupTail eid o.only (some { ctx := ctx, key := key, factory := idx.factory })

/-- `(*FCache).LookupFuture` from `lookup.go`. -/
def Sys.LookupFuture (s : Sys) (opts : List LookupOption) :
    Option (Sys × Except GoError Future × Option Spawn) :=
  match procLookupOpts opts with
  | none => none
  | some (.error e) => some (s, .error e, none)
  | some (.ok o) => s.lookup o

/-! ### `future.go`: wait, cancel -/

/-- The observable state of a wait context at the time of the select. -/
inductive CtxState where
  | active
  | doneWith (e : GoError)
deriving DecidableEq, Repr

/-- `(*Future).wait`: the select over the result channel and the context's
done channel.  Receiving from the nil channel blocks forever; receiving
from a closed empty channel yields the zero `Entry`.  A blocked select is
`none`.  When both cases are ready Go picks randomly; this model prefers
the delivery (the claims below only exercise unambiguous states). -/
def Sys.waitSel (s : Sys) (f : Future) (cs : CtxState) : Option (Sys × Entry) :=
  match f.result with
  | none =>
    match cs with
    | .doneWith e => some (s, { object := none, error := some e, keys := [] })
    | .active => none
  | some cid =>
    match s.getChan cid with
    | none => none
    | some ch =>
      match ch.buf with
      | ent :: rest => some (s.setChan cid { ch with buf := rest }, ent)
      | [] =>
        if ch.closed then some (s, { object := none, error := none, keys := [] })
        else
          match cs with
          | .doneWith e => some (s, { object := none, error := some e, keys := [] })
          | .active => none

/-- The lock-protected direct read of the entry contents at the end of
`WaitWithContext`. -/
def Sys.contentRead (s : Sys) (f : Future) : Option (Sys × Option Obj × Option GoError) :=
  match s.getEnt f.ent with
  | none => none
  | some es =>
    match es.content with
    | none => some (s, none, some .notCached)  -- "Hmm, probably shouldn't happen..."
    | some c => some (s, c.object, c.error)

/-- `(*Future).WaitWithContext` from `future.go`. -/
def Sys.waitWithContext (s : Sys) (f : Future) (cs : CtxState) :
    Option (Sys × Option Obj × Option GoError) :=
  if f.canceled then some (s, none, some .futureCanceled)
  else
    match f.result with
    | some _ =>
      match s.waitSel f cs with
      | none => none
      | some (s, ent) =>
        if ent.object.isSome ∨ ent.error.isSome then some (s, ent.object, ent.error)
        else s.contentRead f
    | none => s.contentRead f

/-- `(*Future).Cancel` from `future.go`: removes the waiter slot and marks
the future cancelled. -/
def Sys.cancelF (s : Sys) (f : Future) : Option (Sys × Future) :=
  if f.canceled then some (s, f)
  else
    match s.getEnt f.ent with
    | none => none
    | some es =>
      let es := { es with reqs := es.reqs.map (fun l => mdelete l f.cookie) }
      some (s.setEnt f.ent es, { f with result := none, canceled := true })

/-- `(*FCache).Lookup` from `lookup.go`: process options, look up, wait on
the future with the option context, cancel the waiter slot on exit.  `cs`
is the state of the wait context when the wait happens. -/
def Sys.Lookup (s : Sys) (opts : List LookupOption) (cs : CtxState) :
    Option (Sys × Option Obj × Option GoError × Option Spawn) :=
  match procLookupOpts opts with
  | none => none
  | some (.error e) => some (s, none, some e, none)
  | some (.ok o) =>
    match s.lookup o with
    | none => none
    | some (s, .error e, sp) => some (s, none, some e, sp)
    | some (s, .ok f, sp) =>
      match s.waitWithContext f cs with
      | none => none
      | some (s, obj, err) =>
        match s.cancelF f with
        | none => none
        | some (s, _) => some (s, obj, err, sp)

/-! ### `evict.go` -/

/-- Internal `(*FCache).evict`: remove every listed key whose slot holds a
completed entry. -/
def Sys.evictKeys (s : Sys) : List Key → Option Sys
  | [] => some s
  | k :: t =>
    match mlookup s.fc.indexes k.index with
    | none => s.evictKeys t  -- skip indexes we don't know about
    | some idx =>
      match mlookup idx.entries k.key with
      | none => s.evictKeys t
      | some eptr =>
        match eptr with
        | none => none  -- `e.content` dereferences a nil *entry
        | some eid =>
          match s.getEnt eid with
          | none => none
          | some es =>
            if es.content.isSome then
              (s.updIndex k.index
                (fun ix => { ix with entries := mdelete ix.entries k.key })).evictKeys t
            else s.evictKeys t

/-- `(*FCache).Evict` from `evict.go`. -/
def Sys.Evict (s : Sys) (opts : List LookupOption) : Option (Sys × Option GoError) :=
  match procLookupOpts opts with
  | none => none
  | some (.error e) => some (s, some e)
  | some (.ok o) =>
    match o.key with
    | none => none  -- `o.key.Index` on a nil *Key
    | some key =>
      match mlookup s.fc.indexes key.index with
      | none => some (s, some .badIndex)
      | some idx =>
        match mlookup idx.entries key.key with
        | none => some (s, none)  -- not present, do nothing
        | some eptr =>
          match eptr with
          | none => none  -- `ent.content` on a nil *entry
          | some eid =>
            match s.getEnt eid with
            | none => none
            | some es =>
              match es.content with
              | none => some (s, none)  -- pending, do nothing
              | some c =>
                match s.evictKeys c.keys with
                | none => none
                | some s => some (s, none)

/-! ### `reindex.go` -/

/-- The `keyMap` record.  `idxId` stands for the `idx index` field: a Go
index struct copy whose `entries` map aliases the live
`fc.indexes[idxId].entries` map, so mutations through it are modelled as
mutations of the cache's index. -/
structure KeyMap where
  idxId : IndexId
  old : KV
  new : KV
  detect : Bool
deriving DecidableEq, Repr

/-- The loop of `fillKeyMap` over the entry's current keys.  `content` is
the dereferenced `ent.content`. -/
def Sys.fillLoop (s : Sys) (content : Entry) (acc : List (IndexId × KeyMap)) :
    List Key → Option (Except GoError (List (IndexId × KeyMap)))
  | [] => some (.ok acc)
  | k :: t =>
    match mlookup s.fc.indexes k.index with
    | none => s.fillLoop content acc t  -- make sure it's a defined index
    | some idx =>
      if (mlookup acc k.index).isSome then s.fillLoop content acc t  -- filter out duplications
      else
        match mlookup idx.entries k.key with
        | none => some (.error .entryNotFound)
        | some eptr =>
          match eptr with
          | none => none  -- `tmp.content` dereferences a nil *entry
          | some tid =>
            match s.getEnt tid with
            | none => none
            | some tes =>
              -- reflect.DeepEqual(ent.content, tmp.content)
              if tes.content = some content then
                s.fillLoop content
                  (minsert acc k.index
                    { idxId := k.index, old := k.key, new := none, detect := true }) t
              else some (.error .entryNotFound)

/-- `(*FCache).fillKeyMap` from `reindex.go`. -/
def Sys.fillKeyMap (s : Sys) (eid : EId) : Option (Except GoError (List (IndexId × KeyMap))) :=
  match s.getEnt eid with
  | none => none
  | some es =>
    match es.content with
    | none => none  -- `ent.content.Keys` on a nil content (callers prevent this)
    | some content => s.fillLoop content [] content.keys

/-- `(*FCache).finishKeyMap` from `reindex.go`: walk the new keys, detect
a new key whose index is not in the old map and duplicated new keys; a new
key equal to the old one is dropped from the work set.  Note: nothing
checks that every old index is mentioned by the new keys. -/
def finishLoop (indexes : List (IndexId × KeyMap)) :
    List Key → (List (IndexId × KeyMap)) × Option GoError
  | [] => (indexes, none)
  | k :: t =>
    match mlookup indexes k.index with
    | none => (indexes, some .incongruentKeys)
    | some km =>
      if !km.detect then (indexes, some .incongruentKeys)
      else if km.old = k.key then finishLoop (mdelete indexes k.index) t
      else finishLoop
        (mupdate indexes k.index (fun km => { km with new := k.key, detect := false })) t

/-- The per-key loop of `remap`.  Returns the rebuilt key list and the
entry ids of pending squatters whose completion was deferred. -/
def Sys.remapLoop (s : Sys) (indexes : List (IndexId × KeyMap)) (eid : EId) :
    List Key → Option (Sys × List Key × List EId)
  | [] => some (s, [], [])
  | k :: t =>
    match mlookup indexes k.index with
    | none =>
      -- Handle unmutated key
      match s.remapLoop indexes eid t with
      | none => none
      | some (s, keys, defs) => some (s, k :: keys, defs)
    | some km =>
      let newKey : Key := { index := k.index, key := km.new }
      -- Delete the old entry
      let s := s.updIndex km.idxId (fun ix => { ix with entries := mdelete ix.entries km.old })
      match mlookup s.fc.indexes km.idxId with
      | none => none  -- cannot happen: km.idx references a live index
      | some ix =>
        -- Check for a squatter
        match mlookup ix.entries km.new with
        | some eptr =>
          match eptr with
          | none => none  -- `e.content` on a nil *entry
          | some sq =>
            match s.getEnt sq with
            | none => none
            | some sqEs =>
              match sqEs.content with
              | none =>
                -- Try to complete the squatter: defer e.complete(ent.content)
                -- and continue without installing
                match s.remapLoop indexes eid t with
                | none => none
                | some (s, keys, defs) => some (s, newKey :: keys, sq :: defs)
              | some sqC =>
                -- OK, have to evict the old entry, then install
                match s.evictKeys sqC.keys with
                | none => none
                | some s =>
                  let s := s.updIndex km.idxId
                    (fun ix => { ix with entries := minsert ix.entries km.new (some eid) })
                  match s.remapLoop indexes eid t with
                  | none => none
                  | some (s, keys, defs) => some (s, newKey :: keys, defs)
        | none =>
          -- Replace with the new entry
          let s := s.updIndex km.idxId
            (fun ix => { ix with entries := minsert ix.entries km.new (some eid) })
          match s.remapLoop indexes eid t with
          | none => none
          | some (s, keys, defs) => some (s, newKey :: keys, defs)

/-- Run the deferred `e.complete(ent.content)` calls.  Go runs deferred
calls last-in first-out; `defs` holds them in registration order, so they
run reversed.  The `ent.content` pointer is dereferenced when each call
runs, after the entry's keys were updated. -/
def Sys.runDeferred (s : Sys) (content : Entry) : List EId → Option Sys
  | [] => some s
  | sq :: t =>
    match s.runDeferred content t with
    | none => none
    | some s =>
      match s.completeE sq content with
      | none => none
      | some (s, _) => some s

/-- `(*FCache).remap` from `reindex.go`. -/
def Sys.remap (s : Sys) (indexes : List (IndexId × KeyMap)) (eid : EId) : Option Sys :=
  match s.getEnt eid with
  | none => none
  | some es =>
    match es.content with
    | none => none  -- callers guarantee a complete entry
    | some content =>
      match s.remapLoop indexes eid content.keys with
      | none => none
      | some (s, keys, defs) =>
        -- Update the entry keys
        let content := { content with keys := keys }
        match s.getEnt eid with
        | none => none
        | some es =>
          let s := s.setEnt eid { es with content := some content }
          s.runDeferred content defs

/-- `(*FCache).Reindex` from `reindex.go`. -/
def Sys.Reindex (s : Sys) (newKeys : List Key) (opts : List LookupOption) :
    Option (Sys × Option GoError) :=
  match procLookupOpts opts with
  | none => none
  | some (.error e) => some (s, some e)
  | some (.ok o) =>
    match o.key with
    | none => none
    | some key =>
      match mlookup s.fc.indexes key.index with
      | none => some (s, some .badIndex)
      | some idx =>
        match mlookup idx.entries key.key with
        | none => some (s, some .notCached)
        | some eptr =>
          match eptr with
          | none => none  -- `ent.content` on a nil *entry
          | some eid =>
            match s.getEnt eid with
            | none => none
            | some es =>
              if es.content = none then some (s, some .notCached)
              else
                match s.fillKeyMap eid with
                | none => none
                | some (.error e) => some (s, some e)
                | some (.ok indexes) =>
                  match finishLoop indexes newKeys with
                  | (_, some e) => some (s, some e)
                  | (indexes, none) =>
                    match s.remap indexes eid with
                    | none => none
                    | some s => some (s, none)

/-! ### `options.go` and `clean.go`: clean options and Clean -/

/-- The closed set of `CleanOption` implementations. -/
inductive CleanOption where
  | objects (b : Bool)
  | errors (b : Bool)
  | pending (b : Bool)
deriving DecidableEq, Repr

/-- The consolidated `cleanOptions` record. -/
structure cleanOptions where
  objects : Bool
  errors : Bool
  pending : Bool
deriving DecidableEq, Repr

/-- `procCleanOpts` from `options.go`: an empty option list means clean
everything. -/
def procCleanOpts (opts : List CleanOption) : cleanOptions :=
  if opts.length = 0 then { objects := true, errors := true, pending := true }
  else
    opts.foldl
      (fun o opt =>
        match opt with
        | .objects b => { o with objects := b }
        | .errors b => { o with errors := b }
        | .pending b => { o with pending := b })
      { objects := false, errors := false, pending := false }

/-- The sentinel completion `&Entry{Error: context.Canceled}` synthesised
by `Clean` for pending entries. -/
def canceledEntry : Entry := { object := none, error := some .canceled, keys := [] }

/-- The inner loop of `Clean` over one index's entries: build the removal
list, completing pending entries when the pending flag is set. -/
def Sys.cleanScan (s : Sys) (o : cleanOptions) :
    List (KV × Option EId) → Option (Sys × List KV)
  | [] => some (s, [])
  | (k, eptr) :: t =>
    match eptr with
    | none => none  -- `ent.content` on a nil *entry
    | some eid =>
      match s.getEnt eid with
      | none => none
      | some es =>
        match es.content with
        | none =>
          if o.pending then
            match s.completeE eid canceledEntry with
            | none => none
            | some (s, _) =>
              match s.cleanScan o t with
              | none => none
              | some (s, rm) => some (s, k :: rm)
          else s.cleanScan o t
        | some c =>
          if o.objects ∧ c.object.isSome then
            match s.cleanScan o t with
            | none => none
            | some (s, rm) => some (s, k :: rm)
          else if o.errors ∧ c.error.isSome then
            match s.cleanScan o t with
            | none => none
            | some (s, rm) => some (s, k :: rm)
          else s.cleanScan o t

/-- The outer loop of `Clean` over the indexes: scan, then remove the
collected keys from that index. -/
def Sys.cleanIndexes (s : Sys) (o : cleanOptions) : List IndexId → Option Sys
  | [] => some s
  | iid :: t =>
    match mlookup s.fc.indexes iid with
    | none => s.cleanIndexes o t  -- cannot happen: iid comes from the map
    | some ix =>
      match s.cleanScan o ix.entries with
      | none => none
      | some (s, rm) =>
        let s := s.updIndex iid (fun ix => { ix with entries := rm.foldl mdelete ix.entries })
        s.cleanIndexes o t

/-- `(*FCache).Clean` from `clean.go`. -/
def Sys.Clean (s : Sys) (opts : List CleanOption) : Option Sys :=
  s.cleanIndexes (procCleanOpts opts) (s.fc.indexes.map Prod.fst)

/-! ## Concrete states used by the claim theorems -/

/-- A factory that always fails to produce an entry (returns nil). -/
def factoryNone : Key → Option Entry := fun _ => none

/-- The cache of `TestFCacheInsertError` in `lookup_test.go`: indexes
"one".."five" are 1..5 (index 4 is not declared); "one" and "three" hold
pending handles at keys 1 and 3; "two" and "five" are empty. -/
def insertErrCache : Sys :=
  { fc := { indexes := [
      (1, { factory := factoryNone, entries := [(some 1, some 0)] }),
      (2, { factory := factoryNone, entries := [] }),
      (3, { factory := factoryNone, entries := [(some 3, some 1)] }),
      (5, { factory := factoryNone, entries := [] })] }
    heap := [{ content := none, reqs := none, cancel := none },
             { content := none, reqs := none, cancel := none }]
    chans := [], canceledCtxs := [], reqCounter := 0, ctxCounter := 0 }

/-- The entry of `TestFCacheInsertError`: a plain (transient) error and
keys in all five indexes. -/
def transientEntry : Entry :=
  { object := none, error := some (.base 0),
    keys := [⟨1, some 1⟩, ⟨2, some 2⟩, ⟨3, some 3⟩, ⟨4, some 4⟩, ⟨5, some 5⟩] }

/-- A completed two-index entry (used by the Reindex claims): object 7
reachable as (1,1) and (2,2). -/
def twoKeyEntry : Entry :=
  { object := some 7, error := none, keys := [⟨1, some 1⟩, ⟨2, some 2⟩] }

/-- A cache in which `twoKeyEntry` is installed at both of its keys. -/
def twoKeyCache : Sys :=
  { fc := { indexes := [
      (1, { factory := factoryNone, entries := [(some 1, some 0)] }),
      (2, { factory := factoryNone, entries := [(some 2, some 0)] })] }
    heap := [{ content := some twoKeyEntry, reqs := none, cancel := none }]
    chans := [], canceledCtxs := [], reqCounter := 0, ctxCounter := 0 }

/-! ## C1 -/

/-- C1: the claim states that after `insert` every slot present in every
index holds a pending or complete handle, never an empty one, and that a
non-retained entry (transient error) installs nothing at absent slots.
The code violates this: on the exact state of `TestFCacheInsertError`,
`insert` returns normally with no retained handle (`newE = nil`) yet the
previously-absent slots ("two",2) and ("five",5) now hold the nil `*entry`
— an empty handle — because the install guard is `ent != nil` (always true
after `ent` was dereferenced) instead of `newE != nil`.  The test itself
expects those slots to stay absent. -/
theorem C1_insert_installs_empty_handle :
    (insertErrCache.insertE (some transientEntry)).map
      (fun r => (r.2, slotOf r.1 2 (some 2), slotOf r.1 5 (some 5),
                 slotOf r.1 1 (some 1), slotOf r.1 3 (some 3))) =
      some (none, some none, some none, none, none) := by
  rfl

/-! ## C2 -/

/-- C2: the claim states that `insert` on a nil `*Entry` is a no-op that
returns normally with all index mappings unchanged.  The code instead
panics: its first statement `ent.Error == nil || IsPermanent(ent.Error)`
dereferences the nil pointer (the later `ent != nil` check is unreachable
with nil).  Consequently `manufacture` with a factory returning nil also
fails to return normally. -/
theorem C2_insert_nil_panics :
    insertErrCache.insertE none = none ∧
    insertErrCache.manufacture ⟨1, some 1⟩ factoryNone = none := by
  exact ⟨rfl, rfl⟩

/-! ## C3 -/

/-- C3: the claim states that (with a valid primary key and congruent old
slots) Reindex returns IncongruentKeys exactly when the new-key IndexId
set differs from the entry's current IndexId set or contains a duplicate,
and in particular that a strict subset yields IncongruentKeys and changes
nothing.  The code never checks that every old index is mentioned: on
`twoKeyCache`, reindexing with only `[(1,10)]` returns nil error, removes
the old slots (1,1) and (2,2), installs the entry at (1,10) *and at the
nil key of index 2* (the unset `km.new`), and rewrites the entry's keys to
`[(1,10),(2,nil)]`. -/
theorem C3_reindex_accepts_subset :
    (twoKeyCache.Reindex [⟨1, some 10⟩] [.byKey ⟨1, some 1⟩]).map
      (fun r => (r.2, slotOf r.1 1 (some 1), slotOf r.1 1 (some 10),
                 slotOf r.1 2 (some 2), slotOf r.1 2 none,
                 (r.1.getEnt 0).map (fun es => es.content.map Entry.keys))) =
      some (none, none, some (some 0), none, some (some 0),
            some (some [⟨1, some 10⟩, ⟨2, none⟩])) := by
  rfl

/-! ## C4 -/

/-- C4: whenever `Reindex` returns normally with a non-nil error (NoKey,
DuplicateOption, BadIndex, NotCached, EntryNotFound or IncongruentKeys),
the state is exactly the state before the call: every error return happens
before `remap`, and `fillKeyMap`/`finishKeyMap` only build the local key
map, so no index mapping, slot, or entry key list is touched. -/
theorem C4_reindex_error_frame (s : Sys) (newKeys : List Key) (opts : List LookupOption)
    (s' : Sys) (e : GoError) (h : s.Reindex newKeys opts = some (s', some e)) :
    s' = s := by
  unfold Sys.Reindex at h
  repeat' split at h
  all_goals simp_all

/-- Witness for C4: `Reindex` on an unknown index returns BadIndex with
the state unchanged. -/
theorem C4_reindex_error_frame_witness :
    twoKeyCache.Reindex [] [.byKey ⟨9, none⟩] = some (twoKeyCache, some .badIndex) ∧
    twoKeyCache = twoKeyCache :=
  ⟨rfl, C4_reindex_error_frame twoKeyCache [] [.byKey ⟨9, none⟩] twoKeyCache .badIndex rfl⟩

/-! ## C6 -/

/-- C6: with a key supplied by ByKey and the SearchCache option, a lookup
whose slot is absent, or present with a pending (nil-content) handle,
returns NotCached through both `LookupFuture` and `Lookup`, spawns no
factory goroutine, installs nothing, and leaves the state untouched. -/
theorem C6_search_only_not_cached (s : Sys) (i : IndexId) (k : KV) (ix : IndexS)
    (hix : mlookup s.fc.indexes i = some ix)
    (hslot : mlookup ix.entries k = none ∨
      ∃ eid es, mlookup ix.entries k = some (some eid) ∧
        s.getEnt eid = some es ∧ es.content = none) :
    s.LookupFuture [.byKey ⟨i, k⟩, .searchCache true] = some (s, .error .notCached, none) ∧
    ∀ cs, s.Lookup [.byKey ⟨i, k⟩, .searchCache true] cs = some (s, none, some .notCached, none) := by
  have hopts : procLookupOpts [.byKey ⟨i, k⟩, .searchCache true] =
      some (.ok { ent := none, key := some ⟨i, k⟩, only := true, ctx := some 0 }) := rfl
  have hlk : s.lookup { ent := none, key := some ⟨i, k⟩, only := true, ctx := some 0 } =
      some (s, .error .notCached, none) := by
    unfold Sys.lookup
    simp only [hix]
    rcases hslot with hmiss | ⟨eid, es, hhit, hes, hpend⟩
    · simp [hmiss]
    · simp [hhit, Sys.lookupTail, hes, hpend]
  constructor
  · unfold Sys.LookupFuture
    rw [hopts]
    exact hlk
  · intro cs
    unfold Sys.Lookup
    rw [hopts]
    simp only [hlk]

/-- Witness for C6: a concrete cache with one empty index and one pending
slot; both shapes return NotCached. -/
theorem C6_search_only_not_cached_witness :
    (mlookup insertErrCache.fc.indexes 2 =
        some { factory := factoryNone, entries := [] } →
      insertErrCache.LookupFuture [.byKey ⟨2, some 7⟩, .searchCache true] =
        some (insertErrCache, .error .notCached, none)) ∧
    insertErrCache.LookupFuture [.byKey ⟨2, some 7⟩, .searchCache true] =
      some (insertErrCache, .error .notCached, none) :=
  ⟨fun h => (C6_search_only_not_cached insertErrCache 2 (some 7) _ h (.inl rfl)).1,
   (C6_search_only_not_cached insertErrCache 2 (some 7) _ rfl (.inl rfl)).1⟩

/-! ## Helper lemmas about the heaps -/

theorem getChan_setChan_self (s : Sys) (c : CId) (v : Chan) (h : c < s.chans.length) :
    (s.setChan c v).getChan c = some v := by
  simp [Sys.setChan, Sys.getChan, List.get?_eq_getElem?, List.getElem?_set_eq_of_lt v h]

theorem getChan_setChan_ne (s : Sys) (c c' : CId) (v : Chan) (h : c ≠ c') :
    (s.setChan c v).getChan c' = s.getChan c' := by
  simp [Sys.setChan, Sys.getChan, List.get?_eq_getElem?, List.getElem?_set_ne h]

theorem getEnt_setEnt_self (s : Sys) (e : EId) (v : EntryS) (h : e < s.heap.length) :
    (s.setEnt e v).getEnt e = some v := by
  simp [Sys.setEnt, Sys.getEnt, List.get?_eq_getElem?, List.getElem?_set_eq_of_lt v h]

theorem getEnt_setEnt_ne (s : Sys) (e e' : EId) (v : EntryS) (h : e ≠ e') :
    (s.setEnt e v).getEnt e' = s.getEnt e' := by
  simp [Sys.setEnt, Sys.getEnt, List.get?_eq_getElem?, List.getElem?_set_ne h]

theorem getEnt_isLt (s : Sys) (e : EId) (es : EntryS) (h : s.getEnt e = some es) :
    e < s.heap.length := by
  rw [Sys.getEnt, List.get?_eq_getElem?] at h
  by_contra hc
  push_neg at hc
  rw [List.getElem?_eq_none hc] at h
  cases h

theorem getChan_isLt (s : Sys) (c : CId) (ch : Chan) (h : s.getChan c = some ch) :
    c < s.chans.length := by
  rw [Sys.getChan, List.get?_eq_getElem?] at h
  by_contra hc
  push_neg at hc
  rw [List.getElem?_eq_none hc] at h
  cases h

/-- `deliverAll` succeeds on a list of distinct, open, empty channels and
leaves each of them closed holding exactly one copy of the entry; nothing
but those channels changes. -/
theorem deliverAll_ok (ent : Entry) :
    ∀ (l : List (Nat × CId)) (s : Sys),
      (∀ q ∈ l, s.getChan q.2 = some { buf := [], closed := false }) →
      (l.map Prod.snd).Nodup →
      ∃ s', s.deliverAll l ent = some s' ∧
        s'.fc = s.fc ∧ s'.heap = s.heap ∧ s'.canceledCtxs = s.canceledCtxs ∧
        s'.reqCounter = s.reqCounter ∧ s'.ctxCounter = s.ctxCounter ∧
        s'.chans.length = s.chans.length ∧
        (∀ q ∈ l, s'.getChan q.2 = some { buf := [ent], closed := true }) ∧
        (∀ c, c ∉ l.map Prod.snd → s'.getChan c = s.getChan c)
  | [], s, _, _ => ⟨s, rfl, rfl, rfl, rfl, rfl, rfl, rfl, by simp, fun _ _ => rfl⟩
  | (ck, c) :: t, s, hok, hnd => by
    have hc : s.getChan c = some { buf := [], closed := false } := hok (ck, c) (by simp)
    have hclt : c < s.chans.length := getChan_isLt s c _ hc
    have hnd' : (c :: t.map Prod.snd).Nodup := hnd
    have hcnt : c ∉ t.map Prod.snd := (List.nodup_cons.mp hnd').1
    have hnd1 : (t.map Prod.snd).Nodup := (List.nodup_cons.mp hnd').2
    set s1 := s.setChan c { buf := [ent], closed := true } with hs1
    have hok1 : ∀ q ∈ t, s1.getChan q.2 = some { buf := [], closed := false } := by
      intro q hq
      rw [hs1, getChan_setChan_ne]
      · exact hok q (by simp [hq])
      · intro hcq
        exact hcnt (hcq ▸ List.mem_map_of_mem Prod.snd hq)
    obtain ⟨s', hrun, hfc, hheap, hcancel, hreq, hctx, hlen, hmem, hpres⟩ :=
      deliverAll_ok ent t s1 hok1 hnd1
    refine ⟨s', ?_, ?_, ?_, ?_, ?_, ?_, ?_, ?_, ?_⟩
    · unfold Sys.deliverAll
      simp [hc, hrun]
    · exact hfc
    · exact hheap
    · exact hcancel
    · exact hreq
    · exact hctx
    · simpa [hs1, Sys.setChan] using hlen
    · intro q hq
      rcases List.mem_cons.mp hq with hq | hq
      · rw [hq]
        rw [hpres c hcnt, hs1, getChan_setChan_self s c _ hclt]
      · exact hmem q hq
    · intro c' hc'
      have hcc' : c ≠ c' := by
        intro h
        exact hc' (h ▸ List.mem_cons_self _ _)
      rw [hpres c' (fun h => hc' (List.mem_cons_of_mem _ h)), hs1,
        getChan_setChan_ne s c c' _ hcc']

/-- Characterization of `complete` on a pending handle whose waiter
channels are distinct, open and empty. -/
theorem completeE_pending (s : Sys) (eid : EId) (ent : Entry) (es : EntryS)
    (hes : s.getEnt eid = some es) (hpend : es.content = none)
    (hok : ∀ l, es.reqs = some l →
      (∀ q ∈ l, s.getChan q.2 = some { buf := [], closed := false }) ∧
      (l.map Prod.snd).Nodup) :
    ∃ s', s.completeE eid ent = some (s', transientErr ent.error) ∧
      s'.getEnt eid = some { content := some ent, reqs := none, cancel := none } ∧
      (∀ e', e' ≠ eid → s'.getEnt e' = s.getEnt e') ∧
      s'.fc = s.fc ∧ s'.heap.length = s.heap.length ∧
      s'.chans.length = s.chans.length ∧
      s'.reqCounter = s.reqCounter ∧ s'.ctxCounter = s.ctxCounter ∧
      (∀ l, es.reqs = some l →
        ∀ q ∈ l, s'.getChan q.2 = some { buf := [ent], closed := true }) ∧
      (∀ c, (∀ l, es.reqs = some l → c ∉ l.map Prod.snd) → s'.getChan c = s.getChan c) ∧
      s'.canceledCtxs = (match es.cancel with
        | some ctx => ctx :: s.canceledCtxs
        | none => s.canceledCtxs) := by
  have helt : eid < s.heap.length := getEnt_isLt s eid es hes
  obtain ⟨content, reqs, cancel⟩ := es
  simp only at hpend
  subst hpend
  cases hreqs : reqs with
  | none =>
    subst hreqs
    cases hcancel : cancel with
    | none =>
      subst hcancel
      refine ⟨s.setEnt eid { content := some ent, reqs := none, cancel := none },
        ?_, ?_, ?_, ?_, ?_, ?_, ?_, ?_, ?_, ?_, ?_⟩
      · unfold Sys.completeE
        rw [hes]
        simp only [Option.isSome_none, Bool.false_eq_true, if_false]
      · exact getEnt_setEnt_self s eid _ helt
      · intro e' he'
        exact getEnt_setEnt_ne s eid e' _ (fun h => he' h.symm)
      · rfl
      · simp [Sys.setEnt]
      · rfl
      · rfl
      · rfl
      · intro l hl
        cases hl
      · intro c _
        rfl
      · rfl
    | some ctx =>
      subst hcancel
      refine ⟨({ s with canceledCtxs := ctx :: s.canceledCtxs } : Sys).setEnt eid
          { content := some ent, reqs := none, cancel := none },
        ?_, ?_, ?_, ?_, ?_, ?_, ?_, ?_, ?_, ?_, ?_⟩
      · unfold Sys.completeE
        rw [hes]
        simp only [Option.isSome_none, Bool.false_eq_true, if_false]
      · exact getEnt_setEnt_self _ eid _ (by simpa using helt)
      · intro e' he'
        rw [getEnt_setEnt_ne _ eid e' _ (fun h => he' h.symm)]
        rfl
      · rfl
      · simp [Sys.setEnt]
      · rfl
      · rfl
      · rfl
      · intro l hl
        cases hl
      · intro c _
        rfl
      · rfl
  | some l =>
    obtain ⟨hchan, hnd⟩ := hok l (by rw [hreqs])
    subst hreqs
    cases hcancel : cancel with
    | none =>
      subst hcancel
      obtain ⟨s', hrun, hfc, hheap, hcc, hrc, hcx, hlen, hmem, hpres⟩ :=
        deliverAll_ok ent l s hchan hnd
      refine ⟨s'.setEnt eid { content := some ent, reqs := none, cancel := none },
        ?_, ?_, ?_, ?_, ?_, ?_, ?_, ?_, ?_, ?_, ?_⟩
      · unfold Sys.completeE
        rw [hes]
        simp only [Option.isSome_none, Bool.false_eq_true, if_false, hrun]
      · exact getEnt_setEnt_self s' eid _ (by rw [hheap]; exact helt)
      · intro e' he'
        rw [getEnt_setEnt_ne s' eid e' _ (fun h => he' h.symm)]
        simp [Sys.getEnt, hheap]
      · simp [Sys.setEnt, hfc]
      · simp [Sys.setEnt, hheap]
      · simp [Sys.setEnt, hlen]
      · simp [Sys.setEnt, hrc]
      · simp [Sys.setEnt, hcx]
      · intro l' hl'
        cases hl'
        intro q hq
        simpa [Sys.setEnt, Sys.getChan] using hmem q hq
      · intro c hc
        have := hpres c (hc l rfl)
        simpa [Sys.setEnt, Sys.getChan] using this
      · simp [Sys.setEnt, hcc]
    | some ctx =>
      subst hcancel
      have hchan0 : ∀ q ∈ l,
          ({ s with canceledCtxs := ctx :: s.canceledCtxs } : Sys).getChan q.2 =
            some { buf := [], closed := false } := by
        intro q hq
        exact hchan q hq
      obtain ⟨s', hrun, hfc, hheap, hcc, hrc, hcx, hlen, hmem, hpres⟩ :=
        deliverAll_ok ent l { s with canceledCtxs := ctx :: s.canceledCtxs } hchan0 hnd
      refine ⟨s'.setEnt eid { content := some ent, reqs := none, cancel := none },
        ?_, ?_, ?_, ?_, ?_, ?_, ?_, ?_, ?_, ?_, ?_⟩
      · unfold Sys.completeE
        rw [hes]
        simp only [Option.isSome_none, Bool.false_eq_true, if_false, hrun]
      · exact getEnt_setEnt_self s' eid _ (by rw [hheap]; simpa using helt)
      · intro e' he'
        rw [getEnt_setEnt_ne s' eid e' _ (fun h => he' h.symm)]
        simp [Sys.getEnt, hheap]
      · simp [Sys.setEnt, hfc]
      · simp [Sys.setEnt, hheap]
      · simp [Sys.setEnt, hlen]
      · simp [Sys.setEnt, hrc]
      · simp [Sys.setEnt, hcx]
      · intro l' hl'
        cases hl'
        intro q hq
        simpa [Sys.setEnt, Sys.getChan] using hmem q hq
      · intro c hc
        have := hpres c (hc l rfl)
        simpa [Sys.setEnt, Sys.getChan] using this
      · simp [Sys.setEnt, hcc]


/-- `complete` on an already-complete handle is a no-op returning false. -/
theorem completeE_done (s : Sys) (eid : EId) (ent : Entry) (es : EntryS)
    (hes : s.getEnt eid = some es) (hdone : es.content.isSome) :
    s.completeE eid ent = some (s, false) := by
  unfold Sys.completeE
  rw [hes]
  simp [hdone]

/-! ## C7 -/

/-- C7: `complete` is idempotent.  The first call on a pending handle
(with its waiter channels distinct, open and empty, as `makeFuture`
creates them) stores the entry as content, delivers one copy to every
waiter channel and closes it, invokes the cancel function (its context
joins the cancelled set) and clears it, and returns true exactly when the
entry's error is non-nil and not permanent; a call on a handle that is
already complete returns false and leaves the state entirely unchanged. -/
theorem C7_complete_idempotent (s : Sys) (eid : EId) (ent : Entry) (es : EntryS)
    (hes : s.getEnt eid = some es)
    (hok : ∀ l, es.reqs = some l →
      (∀ q ∈ l, s.getChan q.2 = some { buf := [], closed := false }) ∧
      (l.map Prod.snd).Nodup) :
    (es.content = none →
      ∃ s', s.completeE eid ent = some (s', transientErr ent.error) ∧
        (transientErr ent.error = true ↔ ∃ e, ent.error = some e ∧ IsPermanent e = false) ∧
        s'.getEnt eid = some { content := some ent, reqs := none, cancel := none } ∧
        (∀ l, es.reqs = some l →
          ∀ q ∈ l, s'.getChan q.2 = some { buf := [ent], closed := true }) ∧
        (∀ ctx, es.cancel = some ctx → ctx ∈ s'.canceledCtxs)) ∧
    (∀ c, es.content = some c → s.completeE eid ent = some (s, false)) := by
  constructor
  · intro hpend
    obtain ⟨s', h1, h2, _, _, _, _, _, _, h9, _, h11⟩ :=
      completeE_pending s eid ent es hes hpend hok
    refine ⟨s', h1, ?_, h2, h9, ?_⟩
    · cases herr : ent.error with
      | none => simp [transientErr]
      | some e =>
        cases hp : IsPermanent e <;> simp [transientErr, hp]
    · intro ctx hctx
      rw [h11, hctx]
      exact List.mem_cons_self _ _
  · intro c hc
    exact completeE_done s eid ent es hes (by rw [hc]; rfl)

/-- A concrete pending handle with two waiters for the C7 witness. -/
def pendWaitSys : Sys :=
  { fc := { indexes := [] }
    heap := [{ content := none, reqs := some [(1, 0), (2, 1)], cancel := some 5 }]
    chans := [{ buf := [], closed := false }, { buf := [], closed := false }]
    canceledCtxs := [], reqCounter := 2, ctxCounter := 6 }

def pendWaitEs : EntryS := { content := none, reqs := some [(1, 0), (2, 1)], cancel := some 5 }

def objEntry : Entry := { object := some 3, error := none, keys := [] }

/-- Witness for C7 at a concrete pending handle with two waiters. -/
theorem C7_complete_idempotent_witness :
    pendWaitSys.getEnt 0 = some pendWaitEs ∧
    ((pendWaitEs.content = none →
      ∃ s', pendWaitSys.completeE 0 objEntry = some (s', transientErr objEntry.error) ∧
        (transientErr objEntry.error = true ↔
          ∃ e, objEntry.error = some e ∧ IsPermanent e = false) ∧
        s'.getEnt 0 = some { content := some objEntry, reqs := none, cancel := none } ∧
        (∀ l, pendWaitEs.reqs = some l →
          ∀ q ∈ l, s'.getChan q.2 = some { buf := [objEntry], closed := true }) ∧
        (∀ ctx, pendWaitEs.cancel = some ctx → ctx ∈ s'.canceledCtxs)) ∧
      (∀ c, pendWaitEs.content = some c →
        pendWaitSys.completeE 0 objEntry = some (pendWaitSys, false))) :=
  ⟨rfl, C7_complete_idempotent pendWaitSys 0 objEntry pendWaitEs rfl
    (fun l hl => by cases hl; exact ⟨by decide, by decide⟩)⟩

/-! ## C8 -/

/-- C8: `WaitWithContext` on a live future whose waiter slot is installed
(the makeFuture invariant: its channel open and empty) returns the
context's error verbatim with a nil object when the context is done
before delivery, leaving the whole state — waiter slot and result channel
included — unchanged; and the slot still works: completing the entry
afterwards delivers the entry, so a later wait returns the real result. -/
theorem C8_wait_ctx_cancel (s : Sys) (f : Future) (cid : CId) (es : EntryS)
    (l : List (Nat × CId))
    (hnc : f.canceled = false) (hres : f.result = some cid)
    (hes : s.getEnt f.ent = some es) (hpend : es.content = none)
    (hreqs : es.reqs = some l) (hmem : (f.cookie, cid) ∈ l)
    (hok : (∀ q ∈ l, s.getChan q.2 = some { buf := [], closed := false }) ∧
      (l.map Prod.snd).Nodup) :
    (∀ e, s.waitWithContext f (.doneWith e) = some (s, none, some e)) ∧
    (∀ ent, ∃ s2, s.completeE f.ent ent = some (s2, transientErr ent.error) ∧
      ∀ cs, s2.waitWithContext f cs =
        some (s2.setChan cid { buf := [], closed := true }, ent.object, ent.error)) := by
  have hch : s.getChan cid = some { buf := [], closed := false } := hok.1 (f.cookie, cid) hmem
  constructor
  · intro e
    unfold Sys.waitWithContext
    rw [hnc]
    simp only [Bool.false_eq_true, if_false, hres]
    unfold Sys.waitSel
    simp only [hres]
    rw [hch]
    simp
  · intro ent
    obtain ⟨s2, h1, h2, _, _, _, _, _, _, h9, _, _⟩ :=
      completeE_pending s f.ent ent es hes hpend
        (fun l' hl' => by rw [hreqs] at hl'; cases hl'; exact hok)
    have hch2 : s2.getChan cid = some { buf := [ent], closed := true } :=
      h9 l hreqs (f.cookie, cid) hmem
    refine ⟨s2, h1, ?_⟩
    intro cs
    unfold Sys.waitWithContext
    rw [hnc]
    simp only [Bool.false_eq_true, if_false, hres]
    unfold Sys.waitSel
    simp only [hres]
    rw [hch2]
    simp only []
    cases hobj : ent.object with
    | some o => simp
    | none =>
      cases herr : ent.error with
      | some e => simp
      | none =>
        simp only [Option.isSome_none, Bool.false_eq_true, or_self, if_false]
        unfold Sys.contentRead
        rw [show (s2.setChan cid { buf := [], closed := true }).getEnt f.ent = s2.getEnt f.ent
          from rfl, h2]
        simp [hobj, herr]

/-- A live future over the pending handle of `pendWaitSys`. -/
def waitFut : Future := { ent := 0, result := some 0, cookie := 1, canceled := false }

/-- Witness for C8 at a concrete pending handle and future. -/
theorem C8_wait_ctx_cancel_witness :
    waitFut.canceled = false ∧
    ((∀ e, pendWaitSys.waitWithContext waitFut (.doneWith e) = some (pendWaitSys, none, some e)) ∧
     (∀ ent, ∃ s2, pendWaitSys.completeE waitFut.ent ent = some (s2, transientErr ent.error) ∧
        ∀ cs, s2.waitWithContext waitFut cs =
          some (s2.setChan 0 { buf := [], closed := true }, ent.object, ent.error))) :=
  ⟨rfl, C8_wait_ctx_cancel pendWaitSys waitFut 0 pendWaitEs [(1, 0), (2, 1)]
    rfl rfl rfl rfl rfl (by decide) ⟨by decide, by decide⟩⟩

/-! ## Go map lemmas -/

theorem mlookup_mupdate_self {α β : Type} [DecidableEq α] (m : List (α × β)) (k : α)
    (f : β → β) : mlookup (mupdate m k f) k = (mlookup m k).map f := by
  induction m with
  | nil => rfl
  | cons p t ih =>
    obtain ⟨a, b⟩ := p
    by_cases h : a = k <;> simp [mupdate, mlookup, h, ih]

theorem mlookup_mupdate_ne {α β : Type} [DecidableEq α] (m : List (α × β)) (k k' : α)
    (f : β → β) (h : k' ≠ k) : mlookup (mupdate m k f) k' = mlookup m k' := by
  induction m with
  | nil => rfl
  | cons p t ih =>
    obtain ⟨a, b⟩ := p
    by_cases ha : a = k
    · subst ha
      simp [mupdate, mlookup, Ne.symm h]
    · simp only [mupdate, if_neg ha]
      by_cases ha' : a = k' <;> simp [mlookup, ha', ih]

theorem mlookup_minsert_self {α β : Type} [DecidableEq α] (m : List (α × β)) (k : α)
    (v : β) : mlookup (minsert m k v) k = some v := by
  induction m with
  | nil => simp [minsert, mlookup]
  | cons p t ih =>
    obtain ⟨a, b⟩ := p
    by_cases h : a = k <;> simp [minsert, mlookup, h, ih]

theorem mlookup_minsert_ne {α β : Type} [DecidableEq α] (m : List (α × β)) (k k' : α)
    (v : β) (h : k' ≠ k) : mlookup (minsert m k v) k' = mlookup m k' := by
  induction m with
  | nil => simp [minsert, mlookup, Ne.symm h]
  | cons p t ih =>
    obtain ⟨a, b⟩ := p
    by_cases ha : a = k
    · subst ha
      simp [minsert, mlookup, Ne.symm h]
    · simp only [minsert, if_neg ha]
      by_cases ha' : a = k' <;> simp [mlookup, ha', ih]

theorem mlookup_mdelete_self {α β : Type} [DecidableEq α] (m : List (α × β)) (k : α) :
    mlookup (mdelete m k) k = none := by
  induction m with
  | nil => rfl
  | cons p t ih =>
    obtain ⟨a, b⟩ := p
    by_cases h : a = k
    · subst h
      simpa [mdelete, List.filter] using ih
    · have hb : ((a, b).1 == k) = false := beq_false_of_ne h
      simp only [mdelete, List.filter, hb, Bool.not_false] at ih ⊢
      simp [mlookup, h, ih]

theorem mlookup_mdelete_ne {α β : Type} [DecidableEq α] (m : List (α × β)) (k k' : α)
    (h : k' ≠ k) : mlookup (mdelete m k) k' = mlookup m k' := by
  induction m with
  | nil => rfl
  | cons p t ih =>
    obtain ⟨a, b⟩ := p
    by_cases ha : a = k
    · subst ha
      simp only [mdelete, List.filter] at ih ⊢
      simp only [beq_self_eq_true, Bool.not_true]
      rw [show mlookup t k' = mlookup ((a, b) :: t) k' from ?_] at ih
      · exact ih
      · simp [mlookup, Ne.symm h]
    · simp only [mdelete, List.filter] at ih ⊢
      have : ((a, b).1 == k) = false := beq_false_of_ne ha
      simp only [this, Bool.not_false]
      by_cases ha' : a = k' <;> simp [mlookup, ha', ih]

/-! ## C5 -/

/-- A serialization of concurrent lookups (the cache mutex serializes
their locked sections): run each lookup in turn and count the spawned
`manufacture` goroutines. -/
def runLookups (s : Sys) : List lookupOptions → Option (Sys × Nat)
  | [] => some (s, 0)
  | o :: t =>
    match s.lookup o with
    | none => none
    | some (s, _, sp) =>
      match runLookups s t with
      | none => none
      | some (s', n) => some (s', (if sp.isSome then 1 else 0) + n)

/-- `slotOf` only reads the index maps. -/
theorem slotOf_eq_of_fc (s s' : Sys) (h : s.fc = s'.fc) (i : IndexId) (k : KV) :
    slotOf s i k = slotOf s' i k := by
  unfold slotOf
  rw [h]

/-- A lookup that misses with the plain factory path installs the pending
handle in the same locked step in which it spawns the factory task. -/
theorem lookup_miss_spawns (s : Sys) (i : IndexId) (k : KV) (ix : IndexS) (o : lookupOptions)
    (hix : mlookup s.fc.indexes i = some ix)
    (hmiss : mlookup ix.entries k = none)
    (hkey : o.key = some ⟨i, k⟩) (hent : o.ent = none) (honly : o.only = false) :
    ∃ s' f sp, s.lookup o = some (s', .ok f, some sp) ∧
      mlookup s'.fc.indexes i = some { ix with entries := minsert ix.entries k (some s.heap.length) } ∧
      s'.heap.length = s.heap.length + 1 := by
  unfold Sys.lookup
  rw [hkey]
  simp only [hix, hmiss, hent, Option.isSome_none, Bool.false_eq_true, if_false, honly]
  unfold Sys.newEntry Sys.lookupTail
  simp only []
  set s1 : Sys := { s with
    heap := s.heap ++ [{ content := none, reqs := none, cancel := some s.ctxCounter }]
    ctxCounter := s.ctxCounter + 1 } with hs1
  set s2 : Sys := s1.updIndex i
    (fun ixx => { ixx with entries := minsert ixx.entries k (some s.heap.length) }) with hs2
  have hget : s2.getEnt s.heap.length =
      some { content := none, reqs := none, cancel := some s.ctxCounter } := by
    simp [hs2, hs1, Sys.updIndex, Sys.getEnt, List.get?_eq_getElem?,
      List.getElem?_append_right, Nat.le_refl]
  rw [hget]
  simp only [Bool.false_eq_true, and_false, if_false]
  unfold Sys.makeFuture
  rw [hget]
  simp only [Option.isSome_none, Bool.false_eq_true, if_false, Option.getD_none]
  refine ⟨_, _, _, rfl, ?_, ?_⟩
  · have : mlookup s2.fc.indexes i =
        some { ix with entries := minsert ix.entries k (some s.heap.length) } := by
      simp [hs2, hs1, Sys.updIndex, mlookup_mupdate_self, hix]
    simpa [Sys.setEnt] using this
  · unfold Sys.setEnt
    simp [hs2, hs1, Sys.updIndex, List.length_set, List.length_append]

/-- A lookup that hits an installed handle spawns nothing and preserves
the index maps and the heap length. -/
theorem lookup_hit_no_spawn (s : Sys) (i : IndexId) (k : KV) (ix : IndexS) (eid : EId)
    (o : lookupOptions)
    (hix : mlookup s.fc.indexes i = some ix)
    (hhit : mlookup ix.entries k = some (some eid)) (helt : eid < s.heap.length)
    (hkey : o.key = some ⟨i, k⟩) (honly : o.only = false) :
    ∃ s' f, s.lookup o = some (s', .ok f, none) ∧
      s'.fc = s.fc ∧ s'.heap.length = s.heap.length := by
  obtain ⟨es, hes⟩ : ∃ es, s.getEnt eid = some es := by
    rw [Sys.getEnt, List.get?_eq_getElem?]
    exact ⟨_, List.getElem?_eq_getElem helt⟩
  unfold Sys.lookup
  rw [hkey]
  simp only [hix, hhit]
  unfold Sys.lookupTail
  rw [hes]
  simp only [honly, Bool.false_eq_true, and_false, if_false]
  unfold Sys.makeFuture
  rw [hes]
  cases hc : es.content with
  | some c =>
    simp only [hc, Option.isSome_some, if_true]
    exact ⟨s, _, rfl, rfl, rfl⟩
  | none =>
    simp only [hc, Option.isSome_none, Bool.false_eq_true, if_false]
    refine ⟨_, _, rfl, rfl, ?_⟩
    simp [Sys.setEnt]

/-- Lookups that keep hitting the installed handle never spawn. -/
theorem runLookups_hits (i : IndexId) (k : KV) :
    ∀ (os : List lookupOptions) (s : Sys),
      (∃ ix eid, mlookup s.fc.indexes i = some ix ∧
        mlookup ix.entries k = some (some eid) ∧ eid < s.heap.length) →
      (∀ o ∈ os, o.key = some ⟨i, k⟩ ∧ o.only = false) →
      ∃ s', runLookups s os = some (s', 0)
  | [], s, _, _ => ⟨s, rfl⟩
  | o :: t, s, ⟨ix, eid, hix, hhit, helt⟩, hall => by
    obtain ⟨s1, f, hrun, hfc, hlen⟩ := lookup_hit_no_spawn s i k ix eid o hix hhit helt
      (hall o (by simp)).1 (hall o (by simp)).2
    obtain ⟨s', hrun'⟩ := runLookups_hits i k t s1
      ⟨ix, eid, by rw [hfc]; exact hix, hhit, by rw [hlen]; exact helt⟩
      (fun o' ho' => hall o' (by simp [ho']))
    refine ⟨s', ?_⟩
    unfold runLookups
    simp only [hrun]
    simp only [hrun']
    simp

/-- C5: single-flight.  For any serialization of concurrent lookups with
the same key on a missing entry (plain factory path: no supplied entry,
no search-only flag), exactly one factory task is ever spawned: the first
locked section installs the pending handle before spawning, so every
later lookup hits the handle and spawns nothing. -/
theorem C5_single_flight (s : Sys) (i : IndexId) (k : KV) (ix : IndexS)
    (o : lookupOptions) (os : List lookupOptions)
    (hix : mlookup s.fc.indexes i = some ix)
    (hmiss : mlookup ix.entries k = none)
    (ho : o.key = some ⟨i, k⟩ ∧ o.ent = none ∧ o.only = false)
    (hos : ∀ o' ∈ os, o'.key = some ⟨i, k⟩ ∧ o'.only = false) :
    ∃ s', runLookups s (o :: os) = some (s', 1) := by
  obtain ⟨s1, f, sp, hrun, hix1, hlen1⟩ :=
    lookup_miss_spawns s i k ix o hix hmiss ho.1 ho.2.1 ho.2.2
  obtain ⟨s', hrun'⟩ := runLookups_hits i k os s1
    ⟨_, s.heap.length, hix1, mlookup_minsert_self ix.entries k (some s.heap.length),
      by rw [hlen1]; exact Nat.lt_succ_self _⟩ hos
  refine ⟨s', ?_⟩
  unfold runLookups
  simp only [hrun]
  simp only [hrun']
  simp

/-- Witness for C5: two plain lookups of the same missing key spawn the
factory exactly once. -/
theorem C5_single_flight_witness :
    mlookup insertErrCache.fc.indexes 2 = some { factory := factoryNone, entries := [] } ∧
    ∃ s', runLookups insertErrCache
      [{ ent := none, key := some ⟨2, some 7⟩, only := false, ctx := some 0 },
       { ent := none, key := some ⟨2, some 7⟩, only := false, ctx := some 0 }] = some (s', 1) :=
  ⟨rfl, C5_single_flight insertErrCache 2 (some 7) _
    { ent := none, key := some ⟨2, some 7⟩, only := false, ctx := some 0 }
    [{ ent := none, key := some ⟨2, some 7⟩, only := false, ctx := some 0 }]
    rfl rfl ⟨rfl, rfl, rfl⟩ (by intro o' ho'; simp at ho'; subst ho'; exact ⟨rfl, rfl⟩)⟩

/-! ## C9 -/

/-- The empty-keys entry used to refute C9's ByEntry clause. -/
def emptyKeysEntry : Entry := { object := none, error := none, keys := [] }

/-- C9 counterexample: the claim says a ByEntry option whose Entry has an
empty Keys list supplies no key and yields NoKey.  In the code,
`byEntryOption.apply` evaluates `&o.ent.Keys[0]`, which panics with an
index-out-of-range on an empty Keys slice: option processing (and hence
LookupFuture, Reindex and Evict) does not return at all, so it does not
return NoKey. -/
theorem C9_by_entry_empty_panics :
    procLookupOpts [.byEntry emptyKeysEntry] = none ∧
    procLookupOpts [.byEntry emptyKeysEntry] ≠ some (.error .noKey) ∧
    twoKeyCache.LookupFuture [.byEntry emptyKeysEntry] = none ∧
    twoKeyCache.Reindex [] [.byEntry emptyKeysEntry] = none ∧
    twoKeyCache.Evict [.byEntry emptyKeysEntry] = none :=
  ⟨rfl, fun h => Option.noConfusion h, rfl, rfl, rfl⟩

/-- All-searchCache option lists leave everything but the flag unchanged. -/
theorem applyOpts_search_only : ∀ (opts : List LookupOption) (o : lookupOptions),
    (∀ o' ∈ opts, ∃ b, o' = LookupOption.searchCache b) →
    ∃ b, applyOpts o opts = some (.ok { o with only := b })
  | [], o, _ => ⟨o.only, rfl⟩
  | opt :: t, o, h => by
    obtain ⟨b, hb⟩ := h opt (by simp)
    subst hb
    obtain ⟨b', hb'⟩ :=
      applyOpts_search_only t { o with only := b } (fun o' ho' => h o' (by simp [ho']))
    exact ⟨b', by unfold applyOpts applyOpt; simpa using hb'⟩

/-- C9 amended: option processing returns NoKey for every option list
that sets no key *and applies without error or panic*: concretely, lists
built from SearchCache options only.  (A ByEntry with an empty Keys list
panics rather than returning NoKey, and WithContext in this code always
fails with DuplicateOption because `procLookupOpts` pre-initialises the
context field with `context.Background()`.)  Lookup, LookupFuture, Evict
and Reindex then return NoKey with the cache untouched. -/
theorem C9_no_key_amended (opts : List LookupOption)
    (h : ∀ o ∈ opts, ∃ b, o = LookupOption.searchCache b) :
    procLookupOpts opts = some (.error .noKey) ∧
    ∀ (s : Sys) (newKeys : List Key) (cs : CtxState),
      s.LookupFuture opts = some (s, .error .noKey, none) ∧
      s.Lookup opts cs = some (s, none, some .noKey, none) ∧
      s.Evict opts = some (s, some .noKey) ∧
      s.Reindex newKeys opts = some (s, some .noKey) := by
  obtain ⟨b, hb⟩ :=
    applyOpts_search_only opts { ent := none, key := none, only := false, ctx := some 0 } h
  have hproc : procLookupOpts opts = some (.error .noKey) := by
    unfold procLookupOpts
    rw [hb]
    exact rfl
  refine ⟨hproc, ?_⟩
  intro s newKeys cs
  refine ⟨?_, ?_, ?_, ?_⟩
  · unfold Sys.LookupFuture
    rw [hproc]
  · unfold Sys.Lookup
    rw [hproc]
  · unfold Sys.Evict
    rw [hproc]
  · unfold Sys.Reindex
    rw [hproc]

/-- Witness for the amended C9 at the one-element SearchCache list. -/
theorem C9_no_key_amended_witness :
    (∀ o ∈ [LookupOption.searchCache true], ∃ b, o = LookupOption.searchCache b) ∧
    procLookupOpts [LookupOption.searchCache true] = some (.error .noKey) :=
  ⟨by decide, (C9_no_key_amended [.searchCache true] (by decide)).1⟩

/-! ## C10: helper layer -/

/-- Whether the handle at `eid` is a complete entry with both object and
error nil (the sentinel shape produced e.g. by cancellation). -/
def sentinelB (s : Sys) (eid : EId) : Bool :=
  match s.getEnt eid with
  | some es =>
    match es.content with
    | some c => c.object.isNone && c.error.isNone
    | none => false
  | none => false

/-- Well-formedness of the waiter channels: every waiter channel of every
handle is open and empty, the channels of one handle are distinct, and no
channel is shared between two handles.  `makeFuture` creates channels
this way and `complete` consumes them. -/
def ReqsWF (s : Sys) : Prop :=
  (∀ i es l, s.getEnt i = some es → es.reqs = some l →
    (∀ q ∈ l, s.getChan q.2 = some { buf := [], closed := false }) ∧
    (l.map Prod.snd).Nodup) ∧
  (∀ i j esi esj li lj, i ≠ j → s.getEnt i = some esi → s.getEnt j = some esj →
    esi.reqs = some li → esj.reqs = some lj → ∀ c ∈ li.map Prod.snd, c ∉ lj.map Prod.snd)

theorem ReqsWF_of_no_reqs (s : Sys) (h : ∀ i es, s.getEnt i = some es → es.reqs = none) :
    ReqsWF s := by
  constructor
  · intro i es l hes hl
    rw [h i es hes] at hl
    cases hl
  · intro i j esi esj li lj _ hesi _ hli _
    rw [h i esi hesi] at hli
    cases hli

/-- Completing a pending handle with the Clean cancellation sentinel:
returns removal, preserves the index maps, the heap length, every other
handle, the sentinel classification of every handle, and `ReqsWF`. -/
theorem completeE_clean_preserves (s : Sys) (eid : EId) (es : EntryS)
    (hes : s.getEnt eid = some es) (hpend : es.content = none) (hwf : ReqsWF s) :
    ∃ s2, s.completeE eid canceledEntry = some (s2, true) ∧
      s2.fc = s.fc ∧ s2.heap.length = s.heap.length ∧
      (∀ j, j ≠ eid → s2.getEnt j = s.getEnt j) ∧
      s2.getEnt eid = some { content := some canceledEntry, reqs := none, cancel := none } ∧
      (∀ j, sentinelB s2 j = sentinelB s j) ∧
      ReqsWF s2 := by
  obtain ⟨s2, h1, h2, h3, h4, h5, h6, _, _, _, h10, _⟩ :=
    completeE_pending s eid canceledEntry es hes hpend
      (fun l hl => (hwf.1 eid es l hes hl))
  refine ⟨s2, by simpa [transientErr, IsPermanent, canceledEntry] using h1, h4, h5, h3, h2,
    ?_, ?_, ?_⟩
  · intro j
    by_cases hj : j = eid
    · subst hj
      rw [sentinelB, sentinelB, h2, hes]
      simp [hpend, canceledEntry]
    · rw [sentinelB, sentinelB, h3 j hj]
  · intro i esi l hesi hli
    by_cases hi : i = eid
    · subst hi
      rw [h2] at hesi
      cases hesi
      cases hli
    · rw [h3 i hi] at hesi
      obtain ⟨hop, hnd⟩ := hwf.1 i esi l hesi hli
      refine ⟨?_, hnd⟩
      intro q hq
      rw [h10 q.2 ?_]
      · exact hop q hq
      · intro l' hl'
        exact hwf.2 i eid esi es l l' hi hesi hes hli hl' q.2 (List.mem_map_of_mem _ hq)
  · intro i j esi esj li lj hij hesi hesj hli hlj
    by_cases hi : i = eid
    · subst hi
      rw [h2] at hesi
      cases hesi
      cases hli
    · by_cases hj : j = eid
      · subst hj
        rw [h2] at hesj
        cases hesj
        cases hlj
      · rw [h3 i hi] at hesi
        rw [h3 j hj] at hesj
        exact hwf.2 i j esi esj li lj hij hesi hesj hli hlj

/-- `mlookup` hits are members of the association list. -/
theorem mlookup_mem {α β : Type} [DecidableEq α] :
    ∀ (m : List (α × β)) (k : α) (v : β), mlookup m k = some v → (k, v) ∈ m
  | [], _, _, h => by cases h
  | (a, b) :: t, k, v, h => by
    by_cases ha : a = k
    · subst ha
      rw [mlookup, if_pos rfl] at h
      cases h
      exact List.mem_cons_self _ _
    · rw [mlookup, if_neg ha] at h
      exact List.mem_cons_of_mem _ (mlookup_mem t k v h)

/-- A key that `mlookup` resolves is among the mapped keys. -/
theorem mlookup_mem_fst {α β : Type} [DecidableEq α] (m : List (α × β)) (k : α) (v : β)
    (h : mlookup m k = some v) : k ∈ m.map Prod.fst :=
  List.mem_map_of_mem Prod.fst (mlookup_mem m k v h)

/-- Deleting a set of keys from a Go map: the lookup of a deleted key is
gone, every other lookup is unchanged. -/
theorem foldl_mdelete_lookup {α β : Type} [DecidableEq α] :
    ∀ (rm : List α) (m : List (α × β)) (k : α),
      mlookup (rm.foldl mdelete m) k = if k ∈ rm then none else mlookup m k
  | [], m, k => by simp
  | r :: t, m, k => by
    simp only [List.foldl]
    rw [foldl_mdelete_lookup t (mdelete m r) k]
    by_cases hk : k ∈ t
    · simp [hk]
    · by_cases hkr : k = r
      · subst hkr
        simp [hk, mlookup_mdelete_self]
      · simp [hk, hkr, mlookup_mdelete_ne m r k hkr]

/-- Characterization of the per-index scan of `Clean`: it returns, touches
only the heap (completing pending handles), preserves the sentinel
classification and `ReqsWF`, and collects exactly the right keys: never a
key whose slot is sentinel-shaped, and — when every flag is set — every
key whose slot is not sentinel-shaped. -/
theorem cleanScan_spec (o : cleanOptions) :
    ∀ (es : List (KV × Option EId)) (s : Sys),
      (∀ p ∈ es, ∃ eid, p.2 = some eid ∧ eid < s.heap.length) →
      (es.map Prod.fst).Nodup →
      ReqsWF s →
      ∃ s2 rm, s.cleanScan o es = some (s2, rm) ∧
        s2.fc = s.fc ∧ s2.heap.length = s.heap.length ∧
        (∀ j, sentinelB s2 j = sentinelB s j) ∧
        ReqsWF s2 ∧
        (∀ k, k ∈ rm → k ∈ es.map Prod.fst) ∧
        (∀ p ∈ es, ∀ eid, p.2 = some eid → sentinelB s eid = true → p.1 ∉ rm) ∧
        (o.objects = true → o.errors = true → o.pending = true →
          ∀ p ∈ es, ∀ eid, p.2 = some eid → sentinelB s eid = false → p.1 ∈ rm)
  | [], s, _, _, hwf =>
    ⟨s, [], rfl, rfl, rfl, fun _ => rfl, hwf, by simp, by simp, by simp⟩
  | (k, p) :: t, s, hslots, hnd, hwf => by
    obtain ⟨eid, hp, hlt⟩ := hslots (k, p) (List.mem_cons_self _ _)
    simp only at hp
    subst hp
    obtain ⟨es0, hes0⟩ : ∃ es0, s.getEnt eid = some es0 := by
      rw [Sys.getEnt, List.get?_eq_getElem?]
      exact ⟨_, List.getElem?_eq_getElem hlt⟩
    have hnd' : (k :: t.map Prod.fst).Nodup := hnd
    have hndt : (t.map Prod.fst).Nodup := (List.nodup_cons.mp hnd').2
    have hknt : k ∉ t.map Prod.fst := (List.nodup_cons.mp hnd').1
    have hslotst : ∀ p ∈ t, ∃ eid, p.2 = some eid ∧ eid < s.heap.length :=
      fun p hp => hslots p (List.mem_cons_of_mem _ hp)
    cases hc : es0.content with
    | none =>
      have hsent : sentinelB s eid = false := by simp [sentinelB, hes0, hc]
      cases hpd : o.pending with
      | true =>
        obtain ⟨s2, hcmp, h2fc, h2len, h2other, h2eid, h2sent, h2wf⟩ :=
          completeE_clean_preserves s eid es0 hes0 hc hwf
        obtain ⟨s3, rm, hrun, h3fc, h3len, h3sent, h3wf, hsub, hnin, hin⟩ :=
          cleanScan_spec o t s2
            (fun p hp => by
              obtain ⟨eid', hp', hlt'⟩ := hslotst p hp
              exact ⟨eid', hp', by rw [h2len]; exact hlt'⟩)
            hndt h2wf
        refine ⟨s3, k :: rm, ?_, ?_, ?_, ?_, h3wf, ?_, ?_, ?_⟩
        · simp only [Sys.cleanScan, hes0, hc, hpd, if_true, hcmp, hrun]
        · rw [h3fc, h2fc]
        · rw [h3len, h2len]
        · intro j
          rw [h3sent j, h2sent j]
        · intro k' hk'
          rcases List.mem_cons.mp hk' with hk' | hk'
          · simp [hk']
          · simp only [List.map, List.mem_cons]
            exact Or.inr (hsub k' hk')
        · intro q hq eid' hq2 hqsent
          rcases List.mem_cons.mp hq with hq | hq
          · subst hq
            simp only at hq2
            cases hq2
            rw [hqsent] at hsent
            cases hsent
          · have hq1ne : q.1 ≠ k := by
              intro hqk
              exact hknt (hqk ▸ List.mem_map_of_mem Prod.fst hq)
            intro hmem
            rcases List.mem_cons.mp hmem with hmem | hmem
            · exact hq1ne hmem
            · exact hnin q hq eid' hq2 (by rw [h2sent eid']; exact hqsent) hmem
        · intro hobj herr hpd2
          intro q hq eid' hq2 hqsent
          rcases List.mem_cons.mp hq with hq | hq
          · subst hq
            exact List.mem_cons_self _ _
          · exact List.mem_cons_of_mem _
              (hin hobj herr hpd q hq eid' hq2 (by rw [h2sent eid']; exact hqsent))
      | false =>
        obtain ⟨s3, rm, hrun, h3fc, h3len, h3sent, h3wf, hsub, hnin, hin⟩ :=
          cleanScan_spec o t s hslotst hndt hwf
        refine ⟨s3, rm, ?_, h3fc, h3len, h3sent, h3wf, ?_, ?_, ?_⟩
        · simp only [Sys.cleanScan, hes0, hc, hpd, Bool.false_eq_true, if_false, hrun]
        · intro k' hk'
          simp only [List.map, List.mem_cons]
          exact Or.inr (hsub k' hk')
        · intro q hq eid' hq2 hqsent
          rcases List.mem_cons.mp hq with hq | hq
          · subst hq
            simp only at hq2
            cases hq2
            rw [hqsent] at hsent
            cases hsent
          · exact hnin q hq eid' hq2 hqsent
        · intro hobj herr hpd2
          cases hpd2
    | some c =>
      have hsent : sentinelB s eid = (c.object.isNone && c.error.isNone) := by
        simp [sentinelB, hes0, hc]
      by_cases hbo : o.objects ∧ c.object.isSome
      · obtain ⟨s3, rm, hrun, h3fc, h3len, h3sent, h3wf, hsub, hnin, hin⟩ :=
          cleanScan_spec o t s hslotst hndt hwf
        have hsentf : sentinelB s eid = false := by
          rw [hsent]
          cases hov : c.object with
          | some v => simp
          | none => exact absurd hbo.2 (by rw [hov]; simp)
        refine ⟨s3, k :: rm, ?_, h3fc, h3len, h3sent, h3wf, ?_, ?_, ?_⟩
        · simp only [Sys.cleanScan, hes0, hc, if_pos hbo, hrun]
        · intro k' hk'
          rcases List.mem_cons.mp hk' with hk' | hk'
          · simp [hk']
          · simp only [List.map, List.mem_cons]
            exact Or.inr (hsub k' hk')
        · intro q hq eid' hq2 hqsent
          rcases List.mem_cons.mp hq with hq | hq
          · subst hq
            simp only at hq2
            cases hq2
            rw [hqsent] at hsentf
            cases hsentf
          · have hq1ne : q.1 ≠ k := by
              intro hqk
              exact hknt (hqk ▸ List.mem_map_of_mem Prod.fst hq)
            intro hmem
            rcases List.mem_cons.mp hmem with hmem | hmem
            · exact hq1ne hmem
            · exact hnin q hq eid' hq2 hqsent hmem
        · intro hobj herr hpd2 q hq eid' hq2 hqsent
          rcases List.mem_cons.mp hq with hq | hq
          · subst hq
            exact List.mem_cons_self _ _
          · exact List.mem_cons_of_mem _ (hin hobj herr hpd2 q hq eid' hq2 hqsent)
      · by_cases hbe : o.errors ∧ c.error.isSome
        · obtain ⟨s3, rm, hrun, h3fc, h3len, h3sent, h3wf, hsub, hnin, hin⟩ :=
            cleanScan_spec o t s hslotst hndt hwf
          have hsentf : sentinelB s eid = false := by
            rw [hsent]
            cases hev : c.error with
            | some e => simp
            | none => exact absurd hbe.2 (by rw [hev]; simp)
          refine ⟨s3, k :: rm, ?_, h3fc, h3len, h3sent, h3wf, ?_, ?_, ?_⟩
          · simp only [Sys.cleanScan, hes0, hc, if_neg hbo, if_pos hbe, hrun]
          · intro k' hk'
            rcases List.mem_cons.mp hk' with hk' | hk'
            · simp [hk']
            · simp only [List.map, List.mem_cons]
              exact Or.inr (hsub k' hk')
          · intro q hq eid' hq2 hqsent
            rcases List.mem_cons.mp hq with hq | hq
            · subst hq
              simp only at hq2
              cases hq2
              rw [hqsent] at hsentf
              cases hsentf
            · have hq1ne : q.1 ≠ k := by
                intro hqk
                exact hknt (hqk ▸ List.mem_map_of_mem Prod.fst hq)
              intro hmem
              rcases List.mem_cons.mp hmem with hmem | hmem
              · exact hq1ne hmem
              · exact hnin q hq eid' hq2 hqsent hmem
          · intro hobj herr hpd2 q hq eid' hq2 hqsent
            rcases List.mem_cons.mp hq with hq | hq
            · subst hq
              exact List.mem_cons_self _ _
            · exact List.mem_cons_of_mem _ (hin hobj herr hpd2 q hq eid' hq2 hqsent)
        · obtain ⟨s3, rm, hrun, h3fc, h3len, h3sent, h3wf, hsub, hnin, hin⟩ :=
            cleanScan_spec o t s hslotst hndt hwf
          refine ⟨s3, rm, ?_, h3fc, h3len, h3sent, h3wf, ?_, ?_, ?_⟩
          · simp only [Sys.cleanScan, hes0, hc, if_neg hbo, if_neg hbe, hrun]
          · intro k' hk'
            simp only [List.map, List.mem_cons]
            exact Or.inr (hsub k' hk')
          · intro q hq eid' hq2 hqsent
            rcases List.mem_cons.mp hq with hq | hq
            · subst hq
              simp only at hq2
              cases hq2
              intro hmem
              exact hknt (hsub _ hmem)
            · exact hnin q hq eid' hq2 hqsent
          · intro hobj herr hpd2 q hq eid' hq2 hqsent
            rcases List.mem_cons.mp hq with hq | hq
            · subst hq
              simp only at hq2
              cases hq2
              rw [hsent] at hqsent
              exfalso
              rcases Bool.and_eq_false_iff.mp hqsent with hofalse | hefalse
              · rw [Option.isNone_eq_false_iff, Option.isSome_iff_ne_none] at hofalse
                rcases Option.ne_none_iff_exists.mp hofalse with ⟨v, hv⟩
                exact hbo ⟨by rw [hobj], by rw [← hv]; rfl⟩
              · rw [Option.isNone_eq_false_iff, Option.isSome_iff_ne_none] at hefalse
                rcases Option.ne_none_iff_exists.mp hefalse with ⟨v, hv⟩
                exact hbe ⟨by rw [herr], by rw [← hv]; rfl⟩
            · exact hin hobj herr hpd2 q hq eid' hq2 hqsent

/-- `updIndex` leaves the heap, channel and counter components alone. -/
theorem ReqsWF_updIndex (s : Sys) (i : IndexId) (f : IndexS → IndexS) (h : ReqsWF s) :
    ReqsWF (s.updIndex i f) :=
  h

theorem sentinelB_updIndex (s : Sys) (i : IndexId) (f : IndexS → IndexS) (j : EId) :
    sentinelB (s.updIndex i f) j = sentinelB s j :=
  rfl

/-- Characterization of the outer loop of `Clean` over a list of distinct
index ids. -/
theorem cleanIndexes_spec (o : cleanOptions) :
    ∀ (iids : List IndexId) (s : Sys),
      iids.Nodup →
      (∀ iid ∈ iids, ∀ ix, mlookup s.fc.indexes iid = some ix →
        (ix.entries.map Prod.fst).Nodup ∧
        ∀ p ∈ ix.entries, ∃ eid, p.2 = some eid ∧ eid < s.heap.length) →
      ReqsWF s →
      ∃ s2, s.cleanIndexes o iids = some s2 ∧
        s2.heap.length = s.heap.length ∧
        (∀ j, sentinelB s2 j = sentinelB s j) ∧
        (∀ iid, iid ∉ iids → mlookup s2.fc.indexes iid = mlookup s.fc.indexes iid) ∧
        (∀ iid ∈ iids, ∀ ix, mlookup s.fc.indexes iid = some ix →
          ∃ ix2, mlookup s2.fc.indexes iid = some ix2 ∧
            (∀ k, mlookup ix2.entries k = none ∨
              mlookup ix2.entries k = mlookup ix.entries k) ∧
            (∀ k eid, mlookup ix.entries k = some (some eid) → sentinelB s eid = true →
              mlookup ix2.entries k = some (some eid)) ∧
            (o.objects = true → o.errors = true → o.pending = true →
              ∀ k eid, mlookup ix.entries k = some (some eid) → sentinelB s eid = false →
                mlookup ix2.entries k = none))
  | [], s, _, _, hwf =>
    ⟨s, rfl, rfl, fun _ => rfl, fun _ _ => rfl, by simp⟩
  | iid :: t, s, hnd, hall, hwf => by
    have hndt : t.Nodup := (List.nodup_cons.mp hnd).2
    have hiidnt : iid ∉ t := (List.nodup_cons.mp hnd).1
    cases hmk : mlookup s.fc.indexes iid with
    | none =>
      obtain ⟨s2, hrec, hlen, hsent, hunp, hproc⟩ :=
        cleanIndexes_spec o t s hndt
          (fun iid' hiid' => hall iid' (List.mem_cons_of_mem _ hiid')) hwf
      refine ⟨s2, ?_, hlen, hsent, ?_, ?_⟩
      · simp only [Sys.cleanIndexes, hmk, hrec]
      · intro iid' hiid'
        exact hunp iid' (fun h => hiid' (List.mem_cons_of_mem _ h))
      · intro iid' hiid' ix hix
        rcases List.mem_cons.mp hiid' with hiid' | hiid'
        · subst hiid'
          rw [hmk] at hix
          cases hix
        · exact hproc iid' hiid' ix hix
    | some ix =>
      obtain ⟨hnde, hslots⟩ := hall iid (List.mem_cons_self _ _) ix hmk
      obtain ⟨sScan, rm, hscan, hsfc, hslen, hssent, hswf, hsub, hnin, hin⟩ :=
        cleanScan_spec o ix.entries s hslots hnde hwf
      set sUpd : Sys :=
        sScan.updIndex iid (fun ixx => { ixx with entries := rm.foldl mdelete ixx.entries })
        with hsUpd
      have hUpdlen : sUpd.heap.length = s.heap.length := hslen
      have hUpdsent : ∀ j, sentinelB sUpd j = sentinelB s j := hssent
      have hUpdwf : ReqsWF sUpd := hswf
      have hUpdlk : ∀ iid', iid' ≠ iid →
          mlookup sUpd.fc.indexes iid' = mlookup s.fc.indexes iid' := by
        intro iid' hne
        rw [hsUpd]
        show mlookup (mupdate sScan.fc.indexes iid _) iid' = _
        rw [mlookup_mupdate_ne _ _ _ _ hne, hsfc]
      have hUpdself : mlookup sUpd.fc.indexes iid =
          some { ix with entries := rm.foldl mdelete ix.entries } := by
        rw [hsUpd]
        show mlookup (mupdate sScan.fc.indexes iid _) iid = _
        rw [mlookup_mupdate_self]
        rw [hsfc, hmk]
        rfl
      obtain ⟨s2, hrec, hlen, hsent, hunp, hproc⟩ :=
        cleanIndexes_spec o t sUpd hndt
          (fun iid' hiid' ix' hix' => by
            have hne : iid' ≠ iid := fun h => hiidnt (h ▸ hiid')
            rw [hUpdlk iid' hne] at hix'
            obtain ⟨hn, hs⟩ := hall iid' (List.mem_cons_of_mem _ hiid') ix' hix'
            exact ⟨hn, fun p hp => by
              obtain ⟨eid, hpe, hlt⟩ := hs p hp
              exact ⟨eid, hpe, by rw [hUpdlen]; exact hlt⟩⟩)
          hUpdwf
      refine ⟨s2, ?_, by rw [hlen, hUpdlen], ?_, ?_, ?_⟩
      · simp only [Sys.cleanIndexes, hmk, hscan, hrec]
      · intro j
        rw [hsent j, hUpdsent j]
      · intro iid' hiid'
        have hne : iid' ≠ iid := fun h => hiid' (h ▸ List.mem_cons_self _ _)
        rw [hunp iid' (fun h => hiid' (List.mem_cons_of_mem _ h)), hUpdlk iid' hne]
      · intro iid' hiid' ix' hix'
        rcases List.mem_cons.mp hiid' with hiid' | hiid'
        · subst hiid'
          rw [hmk] at hix'
          cases hix'
          refine ⟨{ ix with entries := rm.foldl mdelete ix.entries },
            by rw [hunp iid' hiidnt]; exact hUpdself, ?_, ?_, ?_⟩
          · intro k
            show (mlookup (rm.foldl mdelete ix.entries) k = none) ∨ _
            rw [foldl_mdelete_lookup]
            by_cases hk : k ∈ rm
            · simp [hk]
            · simp [hk]
          · intro k eid hk hsentk
            show mlookup (rm.foldl mdelete ix.entries) k = some (some eid)
            rw [foldl_mdelete_lookup]
            have hknr : k ∉ rm :=
              hnin (k, some eid) (mlookup_mem _ _ _ hk) eid rfl hsentk
            rw [if_neg hknr]
            exact hk
          · intro hobj herr hpd k eid hk hsentk
            show mlookup (rm.foldl mdelete ix.entries) k = none
            rw [foldl_mdelete_lookup]
            have hkr : k ∈ rm :=
              hin hobj herr hpd (k, some eid) (mlookup_mem _ _ _ hk) eid rfl hsentk
            rw [if_pos hkr]
        · have hne : iid' ≠ iid := fun h => hiidnt (h ▸ hiid')
          have hix'' : mlookup sUpd.fc.indexes iid' = some ix' := by
            rw [hUpdlk iid' hne]
            exact hix'
          obtain ⟨ix2, hix2, hc1, hc2, hc3⟩ := hproc iid' hiid' ix' hix''
          refine ⟨ix2, hix2, hc1, ?_, ?_⟩
          · intro k eid hk hsentk
            exact hc2 k eid hk (by rw [hUpdsent eid]; exact hsentk)
          · intro hobj herr hpd k eid hk hsentk
            exact hc3 hobj herr hpd k eid hk (by rw [hUpdsent eid]; exact hsentk)

/-! ## C10 -/

/-- C10: `Clean` with no options (Objects, Errors and Pending all implied)
removes every pending slot and every complete slot whose entry has a
non-nil object or error, and keeps exactly the complete slots whose entry
has both object and error nil; such sentinel-shaped complete slots are
never removed by `Clean` under any flag combination.  Hypotheses: the
index and entry maps have unique keys, every slot holds a real handle,
and the waiter channels are well-formed (all guaranteed by the cache's
construction protocol). -/
theorem C10_clean (s : Sys)
    (hnd : (s.fc.indexes.map Prod.fst).Nodup)
    (hall : ∀ iid ix, mlookup s.fc.indexes iid = some ix →
      (ix.entries.map Prod.fst).Nodup ∧
      ∀ p ∈ ix.entries, ∃ eid, p.2 = some eid ∧ eid < s.heap.length)
    (hwf : ReqsWF s) :
    (∃ s2, s.Clean [] = some s2 ∧
      ∀ iid ix, mlookup s.fc.indexes iid = some ix →
        ∃ ix2, mlookup s2.fc.indexes iid = some ix2 ∧
          ∀ k eid, (mlookup ix2.entries k = some (some eid) ↔
            (mlookup ix.entries k = some (some eid) ∧ sentinelB s eid = true))) ∧
    (∀ opts, ∃ s2, s.Clean opts = some s2 ∧
      ∀ iid ix k eid, mlookup s.fc.indexes iid = some ix →
        mlookup ix.entries k = some (some eid) → sentinelB s eid = true →
        ∃ ix2, mlookup s2.fc.indexes iid = some ix2 ∧
          mlookup ix2.entries k = some (some eid)) := by
  constructor
  · obtain ⟨s2, hrun, _, _, _, hproc⟩ :=
      cleanIndexes_spec { objects := true, errors := true, pending := true }
        (s.fc.indexes.map Prod.fst) s hnd
        (fun iid _ ix hix => hall iid ix hix) hwf
    refine ⟨s2, hrun, ?_⟩
    intro iid ix hix
    obtain ⟨ix2, hix2, hc1, hc2, hc3⟩ :=
      hproc iid (mlookup_mem_fst _ _ _ hix) ix hix
    refine ⟨ix2, hix2, ?_⟩
    intro k eid
    constructor
    · intro hfin
      have horig : mlookup ix.entries k = some (some eid) := by
        rcases hc1 k with hnone | hsame
        · rw [hfin] at hnone
          cases hnone
        · rw [← hsame]
          exact hfin
      refine ⟨horig, ?_⟩
      cases hsx : sentinelB s eid with
      | true => rfl
      | false =>
        have := hc3 rfl rfl rfl k eid horig hsx
        rw [hfin] at this
        cases this
    · intro ⟨horig, hsx⟩
      exact hc2 k eid horig hsx
  · intro opts
    obtain ⟨s2, hrun, _, _, _, hproc⟩ :=
      cleanIndexes_spec (procCleanOpts opts) (s.fc.indexes.map Prod.fst) s hnd
        (fun iid _ ix hix => hall iid ix hix) hwf
    refine ⟨s2, hrun, ?_⟩
    intro iid ix k eid hix hk hsx
    obtain ⟨ix2, hix2, _, hc2, _⟩ :=
      hproc iid (mlookup_mem_fst _ _ _ hix) ix hix
    exact ⟨ix2, hix2, hc2 k eid hk hsx⟩

/-- The index of the C10 witness state: a pending slot (1), a complete
object (2), a complete error (3) and a sentinel-shaped complete slot (4). -/
def cleanDemoIx : IndexS :=
  { factory := factoryNone
    entries := [(some 1, some 0), (some 2, some 1), (some 3, some 2), (some 4, some 3)] }

/-- The C10 witness state. -/
def cleanDemoSys : Sys :=
  { fc := { indexes := [(1, cleanDemoIx)] }
    heap := [{ content := none, reqs := none, cancel := some 0 },
             { content := some { object := some 5, error := none, keys := [] },
               reqs := none, cancel := none },
             { content := some { object := none, error := some (.base 1), keys := [] },
               reqs := none, cancel := none },
             { content := some { object := none, error := none, keys := [] },
               reqs := none, cancel := none }]
    chans := [], canceledCtxs := [], reqCounter := 0, ctxCounter := 1 }

/-- Witness for C10 at the concrete four-slot state. -/
theorem C10_clean_witness :
    (cleanDemoSys.fc.indexes.map Prod.fst).Nodup ∧
    ((∃ s2, cleanDemoSys.Clean [] = some s2 ∧
      ∀ iid ix, mlookup cleanDemoSys.fc.indexes iid = some ix →
        ∃ ix2, mlookup s2.fc.indexes iid = some ix2 ∧
          ∀ k eid, (mlookup ix2.entries k = some (some eid) ↔
            (mlookup ix.entries k = some (some eid) ∧ sentinelB cleanDemoSys eid = true))) ∧
    (∀ opts, ∃ s2, cleanDemoSys.Clean opts = some s2 ∧
      ∀ iid ix k eid, mlookup cleanDemoSys.fc.indexes iid = some ix →
        mlookup ix.entries k = some (some eid) → sentinelB cleanDemoSys eid = true →
        ∃ ix2, mlookup s2.fc.indexes iid = some ix2 ∧
          mlookup ix2.entries k = some (some eid))) :=
  ⟨by decide,
   C10_clean cleanDemoSys (by decide)
    (by
      intro iid ix hix
      have hred : mlookup cleanDemoSys.fc.indexes iid =
          (if (1 : IndexId) = iid then some cleanDemoIx else none) := rfl
      rw [hred] at hix
      by_cases h1 : (1 : IndexId) = iid
      · rw [if_pos h1] at hix
        cases hix
        refine ⟨by decide, ?_⟩
        intro p hp
        fin_cases hp
        · exact ⟨0, rfl, by decide⟩
        · exact ⟨1, rfl, by decide⟩
        · exact ⟨2, rfl, by decide⟩
        · exact ⟨3, rfl, by decide⟩
      · rw [if_neg h1] at hix
        cases hix)
    (ReqsWF_of_no_reqs cleanDemoSys (by
      intro i es hes
      have h4 : i < 4 := getEnt_isLt cleanDemoSys i es hes
      interval_cases i <;> (cases hes; rfl)))⟩

end Fcache
